import Mathlib

/-
Verification of the incremental PDF ingestion pipeline of `src/loader.py`.

The pipeline is embedded shallowly: every function of the module is
translated into a pure Lean function, with the ambient file system, the
embedding cache directory, the hash-index file and the Chroma collection
passed as explicit state, and with the external collaborators (the SHA-1
digests from `hashlib`, PDF text extraction, the langchain text splitter,
the sentence-transformers encoder, and the success or failure of a Chroma
`add` call) supplied as an `Env` of oracle functions.  A run additionally
produces a trace of observable events in program order, which is what the
ordering and frame properties are stated against.
-/

namespace Loader

/-- A prepared chunk record, the dict built at loader.py:149-154 and handed
to `_add_batch` (id, document text, embedding, metadata source). -/
structure ChunkRec where
  id : String
  text : String
  emb : List Int
  source : String
deriving DecidableEq, Repr

/-- One persisted embedding-cache file `cache/{uid}.json`: either present but
unparsable (json.load raises) or present with a parsed vector.  A missing
file is simply absent from the association list modelling the directory. -/
inductive CacheFile where
  | corrupt : CacheFile
  | value : List Int → CacheFile
deriving DecidableEq, Repr

/-- The persisted hash-index file `cache/file_hashes.json`: missing,
unparsable, or a parsed mapping from file name to content digest. -/
inductive IndexFile where
  | missing : IndexFile
  | corrupt : IndexFile
  | value : List (String × String) → IndexFile
deriving DecidableEq, Repr

/-- Observable events of a run, in program order: hashing a candidate file
(`hash_file`), the unchanged-skip, the empty-text skip, an embedding-model
call, a cache-file write (`save_cache`), an `_add_batch` attempt with its
outcome, a hash-index commit (`save_hash_index` after per-file success), and
the per-file `except` branch. -/
inductive Ev where
  | readFile : String → String → Ev
  | skipUnchanged : String → Ev
  | emptyText : String → Ev
  | embedCall : String → String → String → Ev
  | cacheWrite : String → String → List Int → Ev
  | flush : List ChunkRec → Bool → Ev
  | commit : String → String → Ev
  | fileError : String → Ev
deriving DecidableEq, Repr

/-- External collaborators of the pipeline, not part of `src/loader.py`:
`hashBytes` and `hashText` are the SHA-1 hexdigests of `hashlib` used by
`hash_file` and `hash_id`; `extract` is the unstructured/pdfplumber
extraction (which may raise); `split` is the langchain
RecursiveCharacterTextSplitter with chunk_size 1000, overlap 150 and
separator priority double-newline, newline, period, space, empty;
`embed` is `embedder.encode(...).tolist()` (which may raise); `addOk`
tells whether a given Chroma `collection.add` batch succeeds. -/
structure Env where
  hashBytes : List Nat → String
  hashText : String → String
  extract : List Nat → Except String String
  split : String → List String
  embed : String → Except String (List Int)
  addOk : List ChunkRec → Bool

/-- BATCH_SIZE = 16 (loader.py:23). -/
def BATCH_SIZE : Nat := 16

/-- Python's `str.strip()`: remove leading and trailing whitespace. -/
def pyStrip (s : String) : String :=
  String.mk (((s.data.dropWhile Char.isWhitespace).reverse.dropWhile
    Char.isWhitespace).reverse)

/-- Python's `str.lower()`: lowercase every character. -/
def strLower (s : String) : String := String.mk (s.data.map Char.toLower)

/-- Python's `str.endswith(suffix)`. -/
def strEndsWith (s suffix : String) : Bool :=
  decide (suffix.data.length ≤ s.data.length) &&
    (s.data.drop (s.data.length - suffix.data.length) == suffix.data)

/-- The non-breaking-space replacement of `clean_text` (loader.py:39). -/
def nbspToSpace (c : Char) : Char := if c = ' ' then ' ' else c

/-- Collapse every maximal run of whitespace to a single space, the
`re.sub` of `clean_text` (loader.py:40). -/
def collapseWs : List Char → List Char
  | [] => []
  | [c] => [if c.isWhitespace then ' ' else c]
  | c :: c2 :: rest =>
    if c.isWhitespace then
      if c2.isWhitespace then collapseWs (c2 :: rest)
      else ' ' :: collapseWs (c2 :: rest)
    else c :: collapseWs (c2 :: rest)

/-- `clean_text` (loader.py:38-41): replace non-breaking spaces, collapse
whitespace runs, strip. -/
def clean_text (s : String) : String :=
  pyStrip (String.mk (collapseWs (s.data.map nbspToSpace)))

/-- `hash_id` (loader.py:44-45): the digest of a text (SHA-1 hexdigest of
its UTF-8 encoding, supplied by the environment). -/
def hash_id (env : Env) (text : String) : String := env.hashText text

/-- `hash_file` (loader.py:48-51): the digest of a file's byte content. -/
def hash_file (env : Env) (content : List Nat) : String := env.hashBytes content

/-- Ordered-dictionary update: replace the value at an existing key in
place, or append a fresh binding at the end (Python dict assignment). -/
def setEntry {α : Type} (k : String) (v : α) : List (String × α) → List (String × α)
  | [] => [(k, v)]
  | (k2, v2) :: rest => if k2 = k then (k, v) :: rest else (k2, v2) :: setEntry k v rest

/-- `load_cache` (loader.py:54-61): a missing file or an unparsable file
both yield None; otherwise the parsed value. -/
def load_cache (fs : List (String × CacheFile)) (fp : String) : Option (List Int) :=
  match fs.lookup fp with
  | none => none
  | some CacheFile.corrupt => none
  | some (CacheFile.value v) => some v

/-- `save_cache` (loader.py:64-66): write the vector to the cache file. -/
def save_cache (fs : List (String × CacheFile)) (fp : String) (v : List Int) :
    List (String × CacheFile) :=
  setEntry fp (CacheFile.value v) fs

/-- `extract_text` (loader.py:69-78), an external collaborator. -/
def extract_text (env : Env) (content : List Nat) : Except String String :=
  env.extract content

/-- `split_text_semantically` (loader.py:81-87), delegating to the external
splitter. -/
def split_text_semantically (env : Env) (text : String) : List String :=
  env.split text

/-- `load_hash_index` (loader.py:91-98): a missing or unparsable index file
is treated as the empty index. -/
def load_hash_index : IndexFile → List (String × String)
  | IndexFile.missing => []
  | IndexFile.corrupt => []
  | IndexFile.value idx => idx

/-- Python truthiness of the `load_cache` result at loader.py:145: None and
the empty list are both falsy. -/
def isFalsy : Option (List Int) → Bool
  | none => true
  | some v => v.isEmpty

/-- Modelled from the spec: the vector store's upsert
(insert-or-overwrite by id); the store itself is an external collaborator
whose code is not in `src/`. -/
def collUpsert (c : List ChunkRec) (r : ChunkRec) : List ChunkRec :=
  if c.any (fun x => x.id = r.id) then
    c.map (fun x => if x.id = r.id then r else x)
  else c ++ [r]

/-- Modelled from the spec: a batch write is all-or-nothing — on success
every record of the batch is upserted, on failure the collection is left
unchanged (and `_add_batch`, loader.py:176-185, swallows the exception). -/
def collAddBatch (ok : Bool) (c : List ChunkRec) (batch : List ChunkRec) :
    List ChunkRec :=
  if ok then batch.foldl collUpsert c else c

/-- The ids present in a collection. -/
def collIds (c : List ChunkRec) : List String := c.map (fun r => r.id)

/-- The in-memory state of the per-file chunk loop (loader.py:137-163):
the `to_add` buffer, the cache directory, the collection, the number of
records counted into `total_added` so far, and the events emitted. -/
structure ChunkAcc where
  buf : List ChunkRec
  cacheFS : List (String × CacheFile)
  coll : List ChunkRec
  added : Nat
  evs : List Ev
deriving Repr

/-- Result of running (part of) the chunk loop: normal completion, or an
exception raised mid-loop with the state at raise time (side effects
already performed persist). -/
inductive StepRes where
  | ok : ChunkAcc → StepRes
  | err : ChunkAcc → StepRes
deriving Repr

/-- One `_add_batch` call site (loader.py:156-159 and 161-163): the batch is
handed to the store, `total_added` is incremented by the batch length
whether or not the store call succeeded, and the buffer is cleared. -/
def flushBuf (env : Env) (acc : ChunkAcc) : ChunkAcc :=
  let ok := env.addOk acc.buf
  { buf := []
    cacheFS := acc.cacheFS
    coll := collAddBatch ok acc.coll acc.buf
    added := acc.added + acc.buf.length
    evs := acc.evs ++ [Ev.flush acc.buf ok] }

/-- One iteration of the chunk loop (loader.py:138-159): derive the id, skip
it if it is in the start-of-run snapshot, otherwise consult the cache,
invoke the embedding model on a falsy cache result (writing the cache file),
append the record to the buffer, and flush once the buffer reaches
BATCH_SIZE.  Only the embedding-model call can raise here. -/
def process_chunk (env : Env) (existingIds : List String) (file : String)
    (acc : ChunkAcc) (chunk : String) : StepRes :=
  let uid := hash_id env (chunk ++ file)
  if existingIds.contains uid then StepRes.ok acc
  else
    let cached := load_cache acc.cacheFS uid
    let embRes : Except String (List Int × List (String × CacheFile) × List Ev) :=
      if isFalsy cached then
        match env.embed chunk with
        | Except.error e => Except.error e
        | Except.ok v =>
          Except.ok (v, save_cache acc.cacheFS uid v,
            [Ev.embedCall file uid chunk, Ev.cacheWrite file uid v])
      else Except.ok (cached.getD [], acc.cacheFS, [])
    match embRes with
    | Except.error _ => StepRes.err acc
    | Except.ok (emb, cfs, evs) =>
      let acc2 : ChunkAcc :=
        { buf := acc.buf ++ [ChunkRec.mk uid chunk emb file]
          cacheFS := cfs
          coll := acc.coll
          added := acc.added
          evs := acc.evs ++ evs }
      if BATCH_SIZE ≤ acc2.buf.length then StepRes.ok (flushBuf env acc2)
      else StepRes.ok acc2

/-- The chunk loop (loader.py:138-159): process chunks in order; an
exception aborts the loop, keeping the side effects performed so far. -/
def process_chunks (env : Env) (existingIds : List String) (file : String)
    (acc : ChunkAcc) : List String → StepRes
  | [] => StepRes.ok acc
  | c :: cs =>
    match process_chunk env existingIds file acc c with
    | StepRes.err a => StepRes.err a
    | StepRes.ok a => process_chunks env existingIds file a cs

/-- The trailing drain of the buffer (loader.py:161-163). -/
def drainBuf (env : Env) (acc : ChunkAcc) : ChunkAcc :=
  if acc.buf.isEmpty then acc else flushBuf env acc

/-- The observable state of a run: the persisted hash-index file, the
in-memory hash dictionary, the cache directory, the collection, the running
`total_added` counter, and the event trace. -/
structure RunState where
  indexFile : IndexFile
  hashIndex : List (String × String)
  cacheFS : List (String × CacheFile)
  coll : List ChunkRec
  totalAdded : Nat
  trace : List Ev
deriving Repr

/-- The body of the per-file loop of `_process_pdfs` (loader.py:117-171):
hash the file, skip it when the index already records that digest, else
extract (a raise aborts the file), skip on empty text, split, run the chunk
loop, drain the buffer, and only then write the file's digest into the
hash index and persist it.  A raise anywhere in the `try` block reaches the
per-file `except`, keeping all side effects performed so far except the
hash-index commit. -/
def process_file (env : Env) (existingIds : List String) (st : RunState)
    (file : String) (content : List Nat) : RunState :=
  let digest := hash_file env content
  let tr0 := st.trace ++ [Ev.readFile file digest]
  if st.hashIndex.lookup file = some digest then
    { st with trace := tr0 ++ [Ev.skipUnchanged file] }
  else
    match extract_text env content with
    | Except.error _ => { st with trace := tr0 ++ [Ev.fileError file] }
    | Except.ok text =>
      if pyStrip text = "" then { st with trace := tr0 ++ [Ev.emptyText file] }
      else
        let chunks := split_text_semantically env (clean_text text)
        let acc0 : ChunkAcc := ⟨[], st.cacheFS, st.coll, 0, []⟩
        match process_chunks env existingIds file acc0 chunks with
        | StepRes.err acc =>
          { st with
            cacheFS := acc.cacheFS
            coll := acc.coll
            totalAdded := st.totalAdded + acc.added
            trace := tr0 ++ acc.evs ++ [Ev.fileError file] }
        | StepRes.ok acc =>
          let acc2 := drainBuf env acc
          let newIndex := setEntry file digest st.hashIndex
          { indexFile := IndexFile.value newIndex
            hashIndex := newIndex
            cacheFS := acc2.cacheFS
            coll := acc2.coll
            totalAdded := st.totalAdded + acc2.added
            trace := tr0 ++ acc2.evs ++ [Ev.commit file digest] }

/-- The candidate filter of loader.py:108: directory entries whose name
ends in ".pdf" case-insensitively. -/
def isPdfName (name : String) : Bool := strEndsWith (strLower name) ".pdf"

/-- The candidate files of a folder, in listing order. -/
def pdfFiles (folder : List (String × List Nat)) : List (String × List Nat) :=
  folder.filter (fun f => isPdfName f.1)

/-- The start-of-run snapshot of existing ids (loader.py:114): empty when
the collection is empty, else the ids of the collection's records. -/
def startIds (coll : List ChunkRec) : List String :=
  if coll.length = 0 then [] else collIds coll

/-- `_process_pdfs` (loader.py:107-173): filter the folder for PDFs; when
none are present return at once; otherwise load the hash index, snapshot
the existing ids, and process the files in order. -/
def process_pdfs (env : Env) (indexFile : IndexFile)
    (folder : List (String × List Nat))
    (cacheFS : List (String × CacheFile)) (coll : List ChunkRec) : RunState :=
  let files := pdfFiles folder
  let st0 : RunState := ⟨indexFile, load_hash_index indexFile, cacheFS, coll, 0, []⟩
  if files.isEmpty then st0
  else
    let existingIds := startIds coll
    files.foldl (fun st f => process_file env existingIds st f.1 f.2) st0

/-- `load_pdfs` (loader.py:189-199): use the existing collection when one
of the configured name exists, else create an empty one, then ingest. -/
def load_pdfs (env : Env) (indexFile : IndexFile)
    (folder : List (String × List Nat))
    (cacheFS : List (String × CacheFile)) (existing : Option (List ChunkRec)) :
    RunState :=
  let coll := match existing with
    | some c => c
    | none => []
  process_pdfs env indexFile folder cacheFS coll

/-- `reload_pdfs` (loader.py:202-209): delete any existing collection of the
configured name, create a fresh empty one, then ingest. -/
def reload_pdfs (env : Env) (indexFile : IndexFile)
    (folder : List (String × List Nat))
    (cacheFS : List (String × CacheFile)) (_existing : Option (List ChunkRec)) :
    RunState :=
  process_pdfs env indexFile folder cacheFS []

/-- The accumulator carried by a `StepRes`, whichever way the loop ended. -/
def resAcc : StepRes → ChunkAcc
  | StepRes.ok a => a
  | StepRes.err a => a

/-- Replace the batch-write outcome oracle of an environment, keeping every
other collaborator fixed. -/
def setAddOk (env : Env) (g : List ChunkRec → Bool) : Env :=
  { env with addOk := g }

/-- Normalize the recorded outcome of flush events, for comparing traces of
runs that differ only in batch-write outcomes. -/
def eraseOk : Ev → Ev
  | Ev.flush b _ => Ev.flush b true
  | e => e

/-- Is this event the hash-index commit of the given file? -/
def isCommitOf (file : String) : Ev → Bool
  | Ev.commit g _ => g == file
  | _ => false

/-- Is this event a batch-write attempt? -/
def isFlushEv : Ev → Bool
  | Ev.flush _ _ => true
  | _ => false

/-- Is this event a failed batch-write attempt? -/
def isFailedFlush : Ev → Bool
  | Ev.flush _ ok => !ok
  | _ => false

/-- Is this event an embedding-model invocation? -/
def isEmbedEv : Ev → Bool
  | Ev.embedCall _ _ _ => true
  | _ => false

/-- Is this event an unchanged-file skip? -/
def isSkipEv : Ev → Bool
  | Ev.skipUnchanged _ => true
  | _ => false

/-- Does the trace contain a hash-index commit of the given file? -/
def hasCommitFor (file : String) (t : List Ev) : Bool := t.any (isCommitOf file)

/-- Every commit of the given file in the trace is its very last event. -/
def commitOnlyLast (file : String) : List Ev → Bool
  | [] => true
  | e :: rest => if isCommitOf file e then rest.isEmpty else commitOnlyLast file rest

/-- Every batch-write in the trace carries between 1 and BATCH_SIZE records,
and any batch-write followed by another batch-write carries exactly
BATCH_SIZE records (only the final drain of a file may be smaller). -/
def flushSizesOk : List Ev → Bool
  | [] => true
  | Ev.flush b _ :: rest =>
    (decide (1 ≤ b.length) && decide (b.length ≤ BATCH_SIZE) &&
      (!(rest.any isFlushEv) || decide (b.length = BATCH_SIZE))) && flushSizesOk rest
  | _ :: rest => flushSizesOk rest

/-- The event does not embed, cache or write any record under the given
chunk id. -/
def evAvoids (uid : String) : Ev → Bool
  | Ev.embedCall _ u _ => !(u == uid)
  | Ev.cacheWrite _ u _ => !(u == uid)
  | Ev.flush b _ => b.all (fun r => !(r.id == uid))
  | _ => true

/-- The event concerns the given file name (reads, skips, errors, commits
of that name, or writes of records whose metadata source is that name). -/
def evTouches (name : String) : Ev → Bool
  | Ev.readFile f _ => f == name
  | Ev.skipUnchanged f => f == name
  | Ev.emptyText f => f == name
  | Ev.embedCall f _ _ => f == name
  | Ev.cacheWrite f _ _ => f == name
  | Ev.flush b _ => b.any (fun r => r.source == name)
  | Ev.commit f _ => f == name
  | Ev.fileError f => f == name

/-- The record stored under the given id in a collection, if any. -/
def collGet (c : List ChunkRec) (uid : String) : Option ChunkRec :=
  c.find? (fun r => r.id == uid)

/-- A record produced by processing the given file: its metadata source is
the file, its id is the digest of its text followed by the file name, and
its id is not in the start-of-run snapshot. -/
def GoodRec (env : Env) (ids : List String) (file : String) (r : ChunkRec) : Prop :=
  r.source = file ∧ r.id = hash_id env (r.text ++ file) ∧ ids.contains r.id = false

/-- An event the chunk loop of the given file may emit: an embedding call or
cache write for a chunk id not in the snapshot, or an exactly-full batch
write of records produced by this file. -/
def GoodEv (env : Env) (ids : List String) (file : String) : Ev → Prop
  | Ev.embedCall f uid c => f = file ∧ uid = hash_id env (c ++ file) ∧
      ids.contains uid = false
  | Ev.cacheWrite f uid _ => f = file ∧ ids.contains uid = false
  | Ev.flush b _ => (∀ r ∈ b, GoodRec env ids file r) ∧ b.length = BATCH_SIZE
  | _ => False

/-- The events of the end-of-file drain: nothing, or one batch write of
fewer than BATCH_SIZE records produced by this file. -/
def DrainOk (env : Env) (ids : List String) (file : String) : List Ev → Prop
  | [] => True
  | [Ev.flush b _] => (∀ r ∈ b, GoodRec env ids file r) ∧ 1 ≤ b.length ∧
      b.length < BATCH_SIZE
  | _ => False

/-- How processing one file may change the cache directory and the
collection: cache entries of snapshot ids are untouched, collection entries
of snapshot ids are untouched, id-uniqueness of the collection is
preserved, and every new record was produced by this file. -/
def CacheCollRel (env : Env) (ids : List String) (file : String) (st : RunState)
    (cfs : List (String × CacheFile)) (co : List ChunkRec) : Prop :=
  (∀ uid, ids.contains uid = true → cfs.lookup uid = st.cacheFS.lookup uid) ∧
  (∀ uid, ids.contains uid = true → collGet co uid = collGet st.coll uid) ∧
  ((collIds st.coll).Nodup → (collIds co).Nodup) ∧
  (∀ r ∈ co, r ∈ st.coll ∨ GoodRec env ids file r)

/-- Two chunk-loop accumulators that agree on everything except the
collection contents and the recorded batch-write outcomes. -/
def AccSim (a b : ChunkAcc) : Prop :=
  a.buf = b.buf ∧ a.cacheFS = b.cacheFS ∧ a.added = b.added ∧
    a.evs.map eraseOk = b.evs.map eraseOk

/-- `AccSim` lifted to chunk-loop results: the loops ended the same way. -/
def resSim : StepRes → StepRes → Prop
  | StepRes.ok a, StepRes.ok b => AccSim a b
  | StepRes.err a, StepRes.err b => AccSim a b
  | _, _ => False

/-- Two run states that agree on everything except the collection contents
and the recorded batch-write outcomes. -/
def StSim (s t : RunState) : Prop :=
  s.indexFile = t.indexFile ∧ s.hashIndex = t.hashIndex ∧ s.cacheFS = t.cacheFS ∧
    s.totalAdded = t.totalAdded ∧ s.trace.map eraseOk = t.trace.map eraseOk

/-- Decode a byte list as a string, for concrete test environments. -/
def bytesToString (bs : List Nat) : String := String.mk (bs.map Char.ofNat)

/-- A concrete environment for evaluating the pipeline on closed inputs:
injective stand-in digests, extraction that decodes the bytes, a splitter
returning the whole text as one chunk, a constant embedder, and batch
writes that always succeed. -/
def testEnv : Env where
  hashBytes := fun bs => String.append "B" (bytesToString bs)
  hashText := fun s => String.append "T" s
  extract := fun bs => Except.ok (bytesToString bs)
  split := fun t => [t]
  embed := fun _ => Except.ok [1]
  addOk := fun _ => true

/-- `testEnv` with every batch write failing. -/
def failAddEnv : Env := { testEnv with addOk := fun _ => false }

/-- `testEnv` with extraction raising. -/
def failExtractEnv : Env := { testEnv with extract := fun _ => Except.error "x" }

/-- `testEnv` with the embedding model raising. -/
def failEmbedEnv : Env := { testEnv with embed := fun _ => Except.error "x" }

/-- A one-file folder: `a.pdf` containing the byte 97. -/
def folder1 : List (String × List Nat) := [("a.pdf", [97])]

/-- The record that ingesting `folder1` under `testEnv` produces. -/
def rec1 : ChunkRec := ChunkRec.mk "Taa.pdf" "a" [1] "a.pdf"

/-- A run state with no persisted state at all. -/
def emptyState : RunState := ⟨IndexFile.missing, [], [], [], 0, []⟩

/-- A chunk-loop accumulator whose cache holds an empty (falsy) vector for
the chunk id that `testEnv` derives for chunk "a" of file `a.pdf`. -/
def accEmptyVec : ChunkAcc := ⟨[], [("Taa.pdf", CacheFile.value [])], [], 0, []⟩

/-- A chunk-loop accumulator whose cache holds a non-empty vector for the
chunk id that `testEnv` derives for chunk "a" of file `a.pdf`. -/
def accHit : ChunkAcc := ⟨[], [("Taa.pdf", CacheFile.value [2])], [], 0, []⟩

/-- How a prefix of the chunk loop may transform the accumulator: events
are appended and are all chunk-loop events of this file, buffered records
stay well-formed and fewer than BATCH_SIZE, cache entries and collection
entries under snapshot ids are untouched, id-uniqueness of the collection
is preserved, and every new collection record was produced by this file. -/
def ChunkEff (env : Env) (ids : List String) (file : String) (acc a : ChunkAcc) : Prop :=
  ((∀ r ∈ acc.buf, GoodRec env ids file r) → acc.buf.length < BATCH_SIZE →
    ∃ extra, a.evs = acc.evs ++ extra ∧ ∀ e ∈ extra, GoodEv env ids file e) ∧
  ((∀ r ∈ acc.buf, GoodRec env ids file r) → ∀ r ∈ a.buf, GoodRec env ids file r) ∧
  (acc.buf.length < BATCH_SIZE → a.buf.length < BATCH_SIZE) ∧
  (∀ uid, ids.contains uid = true → a.cacheFS.lookup uid = acc.cacheFS.lookup uid) ∧
  ((∀ r ∈ acc.buf, GoodRec env ids file r) →
    ∀ uid, ids.contains uid = true → collGet a.coll uid = collGet acc.coll uid) ∧
  ((collIds acc.coll).Nodup → (collIds a.coll).Nodup) ∧
  ((∀ r ∈ acc.buf, GoodRec env ids file r) →
    ∀ r ∈ a.coll, r ∈ acc.coll ∨ GoodRec env ids file r)

/-- The record has been handed to the store or is still pending: it sits in
the accumulator's buffer, or some batch-write event of the accumulator's
events carries it. -/
def Stored (r : ChunkRec) (acc : ChunkAcc) : Prop :=
  r ∈ acc.buf ∨ ∃ b bok, Ev.flush b bok ∈ acc.evs ∧ r ∈ b

theorem lookup_setEntry_self {α : Type} (k : String) (v : α) (l : List (String × α)) :
    (setEntry k v l).lookup k = some v := by
  induction l with
  | nil => simp [setEntry, List.lookup]
  | cons p rest ih =>
    obtain ⟨k2, v2⟩ := p
    by_cases h : k2 = k
    · subst h; simp [setEntry, List.lookup]
    · have hb : (k == k2) = false := beq_eq_false_iff_ne.mpr (Ne.symm h)
      simp [setEntry, h, List.lookup, hb, ih]

theorem lookup_setEntry_ne {α : Type} (k q : String) (v : α) (l : List (String × α))
    (h : q ≠ k) : (setEntry k v l).lookup q = l.lookup q := by
  have hb : (q == k) = false := beq_eq_false_iff_ne.mpr h
  induction l with
  | nil => simp [setEntry, List.lookup, hb]
  | cons p rest ih =>
    obtain ⟨k2, v2⟩ := p
    by_cases hk : k2 = k
    · subst hk; simp [setEntry, List.lookup, hb]
    · simp [setEntry, hk, List.lookup, ih]

theorem mem_collUpsert {c : List ChunkRec} {r x : ChunkRec} (h : x ∈ collUpsert c r) :
    x ∈ c ∨ x = r := by
  unfold collUpsert at h
  split at h
  · rcases List.mem_map.mp h with ⟨y, hy, hxy⟩
    by_cases hid : y.id = r.id
    · rw [if_pos hid] at hxy; exact Or.inr hxy.symm
    · rw [if_neg hid] at hxy; exact Or.inl (hxy ▸ hy)
  · rcases List.mem_append.mp h with h1 | h1
    · exact Or.inl h1
    · exact Or.inr (List.mem_singleton.mp h1)

theorem collIds_collUpsert_mem {c : List ChunkRec} {r : ChunkRec}
    (h : (c.any fun x => x.id = r.id) = true) :
    collIds (collUpsert c r) = collIds c := by
  unfold collUpsert
  rw [if_pos h]
  unfold collIds
  rw [List.map_map]
  apply List.map_congr_left
  intro x _
  by_cases hx : x.id = r.id
  · simp [hx]
  · simp [hx]

theorem collIds_collUpsert_not_mem {c : List ChunkRec} {r : ChunkRec}
    (h : (c.any fun x => x.id = r.id) = false) :
    collIds (collUpsert c r) = collIds c ++ [r.id] := by
  unfold collUpsert
  rw [if_neg (by simp [h])]
  unfold collIds
  rw [List.map_append]
  rfl

theorem nodup_collUpsert {c : List ChunkRec} {r : ChunkRec}
    (h : (collIds c).Nodup) : (collIds (collUpsert c r)).Nodup := by
  by_cases hmem : (c.any fun x => x.id = r.id) = true
  · rw [collIds_collUpsert_mem hmem]; exact h
  · have hf : (c.any fun x => x.id = r.id) = false := by
      cases hb : (c.any fun x => x.id = r.id)
      · rfl
      · exact absurd hb hmem
    rw [collIds_collUpsert_not_mem hf]
    have hnot : r.id ∉ collIds c := by
      intro hin
      rcases List.mem_map.mp hin with ⟨y, hy, hyid⟩
      exact hmem (List.any_eq_true.mpr ⟨y, hy, by simp [hyid]⟩)
    simp [List.nodup_append, h, hnot]

theorem find?_map_upsert (r : ChunkRec) (uid : String) (h : r.id ≠ uid)
    (c : List ChunkRec) :
    ((c.map fun x => if x.id = r.id then r else x).find? fun x => x.id == uid) =
      (c.find? fun x => x.id == uid) := by
  induction c with
  | nil => rfl
  | cons y ys ih =>
    simp only [List.map_cons, List.find?]
    by_cases hy : y.id = r.id
    · have h2 : (y.id == uid) = false := by
        rw [hy]; exact beq_eq_false_iff_ne.mpr h
      have h1 : ((if y.id = r.id then r else y).id == uid) = false := by
        rw [if_pos hy]; exact beq_eq_false_iff_ne.mpr h
      rw [h1, h2]
      exact ih
    · rw [if_neg hy]
      cases hu : (y.id == uid)
      · exact ih
      · rfl

theorem collGet_collUpsert_ne {c : List ChunkRec} {r : ChunkRec} {uid : String}
    (h : r.id ≠ uid) : collGet (collUpsert c r) uid = collGet c uid := by
  unfold collUpsert collGet
  split
  · exact find?_map_upsert r uid h c
  · rw [List.find?_append]
    have : ([r].find? fun x => x.id == uid) = none := by
      simp [List.find?, beq_eq_false_iff_ne.mpr h]
    rw [this]
    cases c.find? fun x => x.id == uid <;> rfl

theorem collGet_foldl_ne {uid : String} :
    ∀ (batch c : List ChunkRec), (∀ r ∈ batch, r.id ≠ uid) →
      collGet (batch.foldl collUpsert c) uid = collGet c uid := by
  intro batch
  induction batch with
  | nil => intro c _; rfl
  | cons r rs ih =>
    intro c h
    simp only [List.foldl_cons]
    rw [ih _ (fun x hx => h x (List.mem_cons_of_mem _ hx)),
      collGet_collUpsert_ne (h r (List.mem_cons_self _ _))]

theorem mem_foldl_collUpsert :
    ∀ (batch c : List ChunkRec) (x : ChunkRec),
      x ∈ batch.foldl collUpsert c → x ∈ c ∨ x ∈ batch := by
  intro batch
  induction batch with
  | nil => intro c x h; exact Or.inl h
  | cons r rs ih =>
    intro c x h
    simp only [List.foldl_cons] at h
    rcases ih _ x h with h1 | h1
    · rcases mem_collUpsert h1 with h2 | h2
      · exact Or.inl h2
      · exact Or.inr (h2 ▸ List.mem_cons_self _ _)
    · exact Or.inr (List.mem_cons_of_mem _ h1)

theorem nodup_foldl_collUpsert :
    ∀ (batch c : List ChunkRec), (collIds c).Nodup →
      (collIds (batch.foldl collUpsert c)).Nodup := by
  intro batch
  induction batch with
  | nil => intro c h; exact h
  | cons r rs ih =>
    intro c h
    simp only [List.foldl_cons]
    exact ih _ (nodup_collUpsert h)

theorem collGet_collAddBatch_ne {ok : Bool} {c batch : List ChunkRec} {uid : String}
    (h : ∀ r ∈ batch, r.id ≠ uid) :
    collGet (collAddBatch ok c batch) uid = collGet c uid := by
  unfold collAddBatch
  split
  · exact collGet_foldl_ne batch c h
  · rfl

theorem mem_collAddBatch {ok : Bool} {c batch : List ChunkRec} {x : ChunkRec}
    (h : x ∈ collAddBatch ok c batch) : x ∈ c ∨ x ∈ batch := by
  unfold collAddBatch at h
  split at h
  · exact mem_foldl_collUpsert batch c x h
  · exact Or.inl h

theorem nodup_collAddBatch {ok : Bool} {c batch : List ChunkRec}
    (h : (collIds c).Nodup) : (collIds (collAddBatch ok c batch)).Nodup := by
  unfold collAddBatch
  split
  · exact nodup_foldl_collUpsert batch c h
  · exact h

theorem isCommitOf_eraseOk (f : String) (e : Ev) :
    isCommitOf f (eraseOk e) = isCommitOf f e := by
  cases e <;> rfl

theorem hasCommitFor_eraseOk (f : String) (l : List Ev) :
    (l.map eraseOk).any (isCommitOf f) = l.any (isCommitOf f) := by
  rw [List.any_map]
  have : (isCommitOf f ∘ eraseOk) = isCommitOf f := by
    funext e
    exact isCommitOf_eraseOk f e
  rw [this]

theorem hasCommitFor_congr {f : String} {s t : List Ev}
    (h : s.map eraseOk = t.map eraseOk) : hasCommitFor f s = hasCommitFor f t := by
  unfold hasCommitFor
  rw [← hasCommitFor_eraseOk f s, ← hasCommitFor_eraseOk f t, h]

theorem contained_ne {ids : List String} {u w : String} (hu : ids.contains u = true)
    (hw : ids.contains w = false) : u ≠ w := by
  intro h
  subst h
  rw [hu] at hw
  exact Bool.noConfusion hw

theorem chunkEff_refl (env : Env) (ids : List String) (file : String)
    (acc : ChunkAcc) : ChunkEff env ids file acc acc := by
  refine ⟨fun _ _ => ⟨[], by simp, by simp⟩, fun h => h, fun h => h,
    fun _ _ => rfl, fun _ _ _ => rfl, fun h => h, fun _ r hr => Or.inl hr⟩

theorem chunkEff_trans {env : Env} {ids : List String} {file : String}
    {acc b c : ChunkAcc} (h1 : ChunkEff env ids file acc b)
    (h2 : ChunkEff env ids file b c) : ChunkEff env ids file acc c := by
  obtain ⟨e1, b1, l1, k1, g1, n1, m1⟩ := h1
  obtain ⟨e2, b2, l2, k2, g2, n2, m2⟩ := h2
  refine ⟨?_, fun hg => b2 (b1 hg), fun hl => l2 (l1 hl),
    fun u hu => (k2 u hu).trans (k1 u hu),
    fun hg u hu => (g2 (b1 hg) u hu).trans (g1 hg u hu),
    fun hn => n2 (n1 hn), ?_⟩
  · intro hg hl
    obtain ⟨x1, hx1, hgx1⟩ := e1 hg hl
    obtain ⟨x2, hx2, hgx2⟩ := e2 (b1 hg) (l1 hl)
    refine ⟨x1 ++ x2, by rw [hx2, hx1, List.append_assoc], ?_⟩
    intro e he
    rcases List.mem_append.mp he with h | h
    · exact hgx1 e h
    · exact hgx2 e h
  · intro hg r hr
    rcases m2 (b1 hg) r hr with h | h
    · exact m1 hg r h
    · exact Or.inr h

theorem chunkEff_push (env : Env) (ids : List String) (file : String)
    (acc : ChunkAcc) (chunk : String) (v : List Int)
    (cfs : List (String × CacheFile)) (E : List Ev)
    (hcf : ids.contains (hash_id env (chunk ++ file)) = false)
    (hcache : ∀ u, ids.contains u = true → cfs.lookup u = acc.cacheFS.lookup u)
    (hE : ∀ e ∈ E, GoodEv env ids file e) :
    ChunkEff env ids file acc (resAcc
      (if BATCH_SIZE ≤
          (acc.buf ++ [ChunkRec.mk (hash_id env (chunk ++ file)) chunk v file]).length
       then StepRes.ok (flushBuf env
          { buf := acc.buf ++ [ChunkRec.mk (hash_id env (chunk ++ file)) chunk v file],
            cacheFS := cfs, coll := acc.coll, added := acc.added,
            evs := acc.evs ++ E })
       else StepRes.ok
          { buf := acc.buf ++ [ChunkRec.mk (hash_id env (chunk ++ file)) chunk v file],
            cacheFS := cfs, coll := acc.coll, added := acc.added,
            evs := acc.evs ++ E })) := by
  have hr0 : GoodRec env ids file (ChunkRec.mk (hash_id env (chunk ++ file)) chunk v file) :=
    ⟨rfl, rfl, hcf⟩
  by_cases h16 : BATCH_SIZE ≤
      (acc.buf ++ [ChunkRec.mk (hash_id env (chunk ++ file)) chunk v file]).length
  · rw [if_pos h16]
    simp only [resAcc, flushBuf]
    have hlenb : (acc.buf ++ [ChunkRec.mk (hash_id env (chunk ++ file)) chunk v file]).length
        = acc.buf.length + 1 := by simp
    refine ⟨?_, ?_, ?_, ?_, ?_, ?_, ?_⟩
    · intro hg hl
      refine ⟨E ++ [Ev.flush
          (acc.buf ++ [ChunkRec.mk (hash_id env (chunk ++ file)) chunk v file])
          (env.addOk (acc.buf ++ [ChunkRec.mk (hash_id env (chunk ++ file)) chunk v file]))],
        by simp, ?_⟩
      intro e he
      rcases List.mem_append.mp he with h | h
      · exact hE e h
      · rw [List.mem_singleton.mp h]
        refine ⟨?_, ?_⟩
        · intro r hr
          rcases List.mem_append.mp hr with h1 | h1
          · exact hg r h1
          · rw [List.mem_singleton.mp h1]; exact hr0
        · rw [hlenb]
          rw [hlenb] at h16
          exact Nat.le_antisymm (Nat.succ_le_of_lt hl) h16
    · intro _ r hr
      exact absurd hr (List.not_mem_nil r)
    · intro _
      simp [BATCH_SIZE]
    · intro u hu
      exact hcache u hu
    · intro hg u hu
      apply collGet_collAddBatch_ne
      intro r hr
      rcases List.mem_append.mp hr with h | h
      · exact Ne.symm (contained_ne hu (hg r h).2.2)
      · rw [List.mem_singleton.mp h]; exact Ne.symm (contained_ne hu hcf)
    · intro hn
      exact nodup_collAddBatch hn
    · intro hg r hr
      rcases mem_collAddBatch hr with h | h
      · exact Or.inl h
      · rcases List.mem_append.mp h with h1 | h1
        · exact Or.inr (hg r h1)
        · rw [List.mem_singleton.mp h1]; exact Or.inr hr0
  · rw [if_neg h16]
    simp only [resAcc]
    refine ⟨?_, ?_, ?_, ?_, fun _ _ _ => rfl, fun h => h, fun _ r hr => Or.inl hr⟩
    · intro _ _
      exact ⟨E, rfl, hE⟩
    · intro hg r hr
      rcases List.mem_append.mp hr with h | h
      · exact hg r h
      · rw [List.mem_singleton.mp h]; exact hr0
    · intro _
      have : (acc.buf ++ [ChunkRec.mk (hash_id env (chunk ++ file)) chunk v file]).length
          = acc.buf.length + 1 := by simp
      rw [this]
      rw [this] at h16
      exact Nat.lt_of_not_le h16
    · intro u hu
      exact hcache u hu

theorem process_chunk_eff (env : Env) (ids : List String) (file : String)
    (acc : ChunkAcc) (chunk : String) :
    ChunkEff env ids file acc (resAcc (process_chunk env ids file acc chunk)) := by
  simp only [process_chunk]
  by_cases hc : ids.contains (hash_id env (chunk ++ file)) = true
  · rw [if_pos hc]
    exact chunkEff_refl env ids file acc
  · rw [if_neg hc]
    have hcf : ids.contains (hash_id env (chunk ++ file)) = false := by
      cases hb : ids.contains (hash_id env (chunk ++ file))
      · rfl
      · exact absurd hb hc
    by_cases hf : isFalsy (load_cache acc.cacheFS (hash_id env (chunk ++ file))) = true
    · rw [if_pos hf]
      cases he : env.embed chunk with
      | error e => exact chunkEff_refl env ids file acc
      | ok v =>
        refine chunkEff_push env ids file acc chunk v _ _ hcf ?_ ?_
        · intro u hu
          exact lookup_setEntry_ne _ u _ _ (contained_ne hu hcf)
        · intro e he2
          rcases List.mem_cons.mp he2 with h | h
          · rw [h]; exact ⟨rfl, rfl, hcf⟩
          · rw [List.mem_singleton.mp h]; exact ⟨rfl, hcf⟩
    · rw [if_neg hf]
      exact chunkEff_push env ids file acc chunk _ _ _ hcf (fun _ _ => rfl)
        (fun e he => absurd he (List.not_mem_nil e))

theorem process_chunks_eff (env : Env) (ids : List String) (file : String) :
    ∀ (cs : List String) (acc : ChunkAcc),
      ChunkEff env ids file acc (resAcc (process_chunks env ids file acc cs)) := by
  intro cs
  induction cs with
  | nil => intro acc; exact chunkEff_refl env ids file acc
  | cons c cs ih =>
    intro acc
    simp only [process_chunks]
    cases hstep : process_chunk env ids file acc c with
    | err a =>
      have h1 := process_chunk_eff env ids file acc c
      rw [hstep] at h1
      exact h1
    | ok a =>
      have h1 := process_chunk_eff env ids file acc c
      rw [hstep] at h1
      exact chunkEff_trans h1 (ih a)

theorem drainBuf_eff (env : Env) (ids : List String) (file : String) (a : ChunkAcc)
    (hgood : ∀ r ∈ a.buf, GoodRec env ids file r)
    (hlen : a.buf.length < BATCH_SIZE) :
    ∃ dfl, (drainBuf env a).evs = a.evs ++ dfl ∧ DrainOk env ids file dfl ∧
      (drainBuf env a).cacheFS = a.cacheFS ∧
      (∀ uid, ids.contains uid = true →
        collGet (drainBuf env a).coll uid = collGet a.coll uid) ∧
      ((collIds a.coll).Nodup → (collIds (drainBuf env a).coll).Nodup) ∧
      (∀ r ∈ (drainBuf env a).coll, r ∈ a.coll ∨ GoodRec env ids file r) := by
  unfold drainBuf
  by_cases he : a.buf.isEmpty = true
  · rw [if_pos he]
    exact ⟨[], by simp, True.intro, rfl, fun _ _ => rfl, fun h => h, fun r hr => Or.inl hr⟩
  · rw [if_neg he]
    refine ⟨[Ev.flush a.buf (env.addOk a.buf)], rfl, ⟨hgood, ?_, hlen⟩, rfl, ?_, ?_, ?_⟩
    · cases hb : a.buf with
      | nil => rw [hb] at he; exact absurd rfl he
      | cons x xs => simp
    · intro uid hu
      exact collGet_collAddBatch_ne (fun r hr => Ne.symm (contained_ne hu (hgood r hr).2.2))
    · exact fun hn => nodup_collAddBatch hn
    · intro r hr
      rcases mem_collAddBatch hr with h | h
      · exact Or.inl h
      · exact Or.inr (hgood r h)

theorem push_sim (env : Env) (g : List ChunkRec → Bool)
    (abuf : List ChunkRec) (cfs : List (String × CacheFile))
    (acoll bcoll : List ChunkRec) (aadd : Nat) (aevs bevs E : List Ev)
    (r0 : ChunkRec) (hevs : aevs.map eraseOk = bevs.map eraseOk) :
    resSim
      (if BATCH_SIZE ≤ (abuf ++ [r0]).length
       then StepRes.ok (flushBuf env
          { buf := abuf ++ [r0], cacheFS := cfs, coll := acoll, added := aadd,
            evs := aevs ++ E })
       else StepRes.ok
          { buf := abuf ++ [r0], cacheFS := cfs, coll := acoll, added := aadd,
            evs := aevs ++ E })
      (if BATCH_SIZE ≤ (abuf ++ [r0]).length
       then StepRes.ok (flushBuf (setAddOk env g)
          { buf := abuf ++ [r0], cacheFS := cfs, coll := bcoll, added := aadd,
            evs := bevs ++ E })
       else StepRes.ok
          { buf := abuf ++ [r0], cacheFS := cfs, coll := bcoll, added := aadd,
            evs := bevs ++ E }) := by
  have hEE : (aevs ++ E).map eraseOk = (bevs ++ E).map eraseOk := by
    rw [List.map_append, List.map_append, hevs]
  by_cases h16 : BATCH_SIZE ≤ (abuf ++ [r0]).length
  · rw [if_pos h16, if_pos h16]
    refine ⟨rfl, rfl, rfl, ?_⟩
    show ((aevs ++ E) ++ [Ev.flush (abuf ++ [r0]) (env.addOk (abuf ++ [r0]))]).map eraseOk
      = ((bevs ++ E) ++ [Ev.flush (abuf ++ [r0]) (g (abuf ++ [r0]))]).map eraseOk
    simp only [List.map_append, List.map_cons, List.map_nil, eraseOk, hevs]
  · rw [if_neg h16, if_neg h16]
    exact ⟨rfl, rfl, rfl, hEE⟩

theorem process_chunk_sim (env : Env) (g : List ChunkRec → Bool) (ids : List String)
    (file chunk : String) (a b : ChunkAcc) (h : AccSim a b) :
    resSim (process_chunk env ids file a chunk)
      (process_chunk (setAddOk env g) ids file b chunk) := by
  obtain ⟨hbuf, hcache, hadded, hevs⟩ := h
  obtain ⟨abuf, acfs, acoll, aadd, aevs⟩ := a
  obtain ⟨bbuf, bcfs, bcoll, badd, bevs⟩ := b
  dsimp only at hbuf hcache hadded hevs
  subst hbuf; subst hcache; subst hadded
  simp only [process_chunk, setAddOk, hash_id]
  by_cases hc : ids.contains (env.hashText (chunk ++ file)) = true
  · rw [if_pos hc, if_pos hc]
    exact ⟨rfl, rfl, rfl, hevs⟩
  · rw [if_neg hc, if_neg hc]
    by_cases hf : isFalsy (load_cache acfs (env.hashText (chunk ++ file))) = true
    · rw [if_pos hf]
      cases he : env.embed chunk with
      | error e => exact ⟨rfl, rfl, rfl, hevs⟩
      | ok v => exact push_sim env g abuf _ acoll bcoll aadd aevs bevs _ _ hevs
    · rw [if_neg hf]
      exact push_sim env g abuf _ acoll bcoll aadd aevs bevs _ _ hevs

theorem process_chunks_sim (env : Env) (g : List ChunkRec → Bool) (ids : List String)
    (file : String) :
    ∀ (cs : List String) (a b : ChunkAcc), AccSim a b →
      resSim (process_chunks env ids file a cs)
        (process_chunks (setAddOk env g) ids file b cs) := by
  intro cs
  induction cs with
  | nil => intro a b h; exact h
  | cons c cs ih =>
    intro a b h
    simp only [process_chunks]
    have hs := process_chunk_sim env g ids file c a b h
    cases h1 : process_chunk env ids file a c with
    | err a2 =>
      cases h2 : process_chunk (setAddOk env g) ids file b c with
      | err b2 =>
        rw [h1, h2] at hs
        exact hs
      | ok b2 =>
        rw [h1, h2] at hs
        exact absurd hs (by simp [resSim])
    | ok a2 =>
      cases h2 : process_chunk (setAddOk env g) ids file b c with
      | err b2 =>
        rw [h1, h2] at hs
        exact absurd hs (by simp [resSim])
      | ok b2 =>
        rw [h1, h2] at hs
        exact ih a2 b2 hs

theorem process_file_shape (env : Env) (ids : List String) (st : RunState)
    (file : String) (content : List Nat) :
    (st.hashIndex.lookup file = some (hash_file env content) ∧
     process_file env ids st file content =
       { st with trace := st.trace ++ [Ev.readFile file (hash_file env content),
          Ev.skipUnchanged file] }) ∨
    (st.hashIndex.lookup file ≠ some (hash_file env content) ∧
     process_file env ids st file content =
       { st with trace := st.trace ++ [Ev.readFile file (hash_file env content),
          Ev.fileError file] }) ∨
    (st.hashIndex.lookup file ≠ some (hash_file env content) ∧
     process_file env ids st file content =
       { st with trace := st.trace ++ [Ev.readFile file (hash_file env content),
          Ev.emptyText file] }) ∨
    (st.hashIndex.lookup file ≠ some (hash_file env content) ∧
     ∃ evs cfs co n, (∀ e ∈ evs, GoodEv env ids file e) ∧
       CacheCollRel env ids file st cfs co ∧
       process_file env ids st file content =
         { indexFile := st.indexFile, hashIndex := st.hashIndex, cacheFS := cfs,
           coll := co, totalAdded := st.totalAdded + n,
           trace := st.trace ++ Ev.readFile file (hash_file env content) ::
             (evs ++ [Ev.fileError file]) }) ∨
    (st.hashIndex.lookup file ≠ some (hash_file env content) ∧
     ∃ evs dfl cfs co n, (∀ e ∈ evs, GoodEv env ids file e) ∧
       DrainOk env ids file dfl ∧ CacheCollRel env ids file st cfs co ∧
       process_file env ids st file content =
         { indexFile := IndexFile.value (setEntry file (hash_file env content) st.hashIndex),
           hashIndex := setEntry file (hash_file env content) st.hashIndex,
           cacheFS := cfs, coll := co, totalAdded := st.totalAdded + n,
           trace := st.trace ++ Ev.readFile file (hash_file env content) ::
             (evs ++ (dfl ++ [Ev.commit file (hash_file env content)])) }) := by
  have hbuf0 : ∀ r ∈ ([] : List ChunkRec), GoodRec env ids file r := by
    intro r hr
    exact absurd hr (List.not_mem_nil r)
  have hlen0 : ([] : List ChunkRec).length < BATCH_SIZE := by simp [BATCH_SIZE]
  by_cases hskip : st.hashIndex.lookup file = some (hash_file env content)
  · left
    refine ⟨hskip, ?_⟩
    simp only [process_file]
    rw [if_pos hskip]
    simp [List.append_assoc]
  · right
    simp only [process_file]
    rw [if_neg hskip]
    cases hex : extract_text env content with
    | error e =>
      left
      exact ⟨hskip, by simp [List.append_assoc]⟩
    | ok text =>
      right
      dsimp only
      by_cases hempty : pyStrip text = ""
      · left
        rw [if_pos hempty]
        exact ⟨hskip, by simp [List.append_assoc]⟩
      · right
        rw [if_neg hempty]
        cases hch : process_chunks env ids file
            { buf := [], cacheFS := st.cacheFS, coll := st.coll, added := 0, evs := [] }
            (split_text_semantically env (clean_text text)) with
        | err acc =>
          left
          have eff := process_chunks_eff env ids file
            (split_text_semantically env (clean_text text))
            { buf := [], cacheFS := st.cacheFS, coll := st.coll, added := 0, evs := [] }
          rw [hch] at eff
          obtain ⟨e1, _, _, k1, g1, n1, m1⟩ := eff
          obtain ⟨extra, hex2, hgex⟩ := e1 hbuf0 hlen0
          refine ⟨hskip, acc.evs, acc.cacheFS, acc.coll, acc.added, ?_, ?_, ?_⟩
          · intro e he
            rw [show acc.evs = extra from hex2] at he
            exact hgex e he
          · exact ⟨k1, g1 hbuf0, n1, m1 hbuf0⟩
          · simp [List.append_assoc]
        | ok acc =>
          right
          have eff := process_chunks_eff env ids file
            (split_text_semantically env (clean_text text))
            { buf := [], cacheFS := st.cacheFS, coll := st.coll, added := 0, evs := [] }
          rw [hch] at eff
          obtain ⟨e1, b1, l1, k1, g1, n1, m1⟩ := eff
          obtain ⟨extra, hex2, hgex⟩ := e1 hbuf0 hlen0
          obtain ⟨dfl, hdevs, hdok, hdcfs, hdget, hdnodup, hdmem⟩ :=
            drainBuf_eff env ids file acc (b1 hbuf0) (l1 hlen0)
          refine ⟨hskip, acc.evs, dfl, (drainBuf env acc).cacheFS, (drainBuf env acc).coll,
            (drainBuf env acc).added, ?_, hdok, ?_, ?_⟩
          · intro e he
            rw [show acc.evs = extra from hex2] at he
            exact hgex e he
          · refine ⟨?_, ?_, ?_, ?_⟩
            · intro uid hu
              rw [hdcfs]
              exact k1 uid hu
            · intro uid hu
              rw [hdget uid hu]
              exact g1 hbuf0 uid hu
            · exact fun hn => hdnodup (n1 hn)
            · intro r hr
              rcases hdmem r hr with h | h
              · exact m1 hbuf0 r h
              · exact Or.inr h
          · simp [hdevs, List.append_assoc]

theorem goodEv_cases {env : Env} {ids : List String} {file : String} {e : Ev}
    (h : GoodEv env ids file e) :
    (∃ u c, e = Ev.embedCall file u c ∧ u = hash_id env (c ++ file) ∧
      ids.contains u = false) ∨
    (∃ u v, e = Ev.cacheWrite file u v ∧ ids.contains u = false) ∨
    (∃ b ok, e = Ev.flush b ok ∧ (∀ r ∈ b, GoodRec env ids file r) ∧
      b.length = BATCH_SIZE) := by
  cases e with
  | embedCall f u c =>
    obtain ⟨h1, h2, h3⟩ := h
    exact Or.inl ⟨u, c, by rw [h1], h2, h3⟩
  | cacheWrite f u v =>
    obtain ⟨h1, h2⟩ := h
    exact Or.inr (Or.inl ⟨u, v, by rw [h1], h2⟩)
  | flush b ok =>
    obtain ⟨h1, h2⟩ := h
    exact Or.inr (Or.inr ⟨b, ok, rfl, h1, h2⟩)
  | readFile f d => exact absurd h (by simp [GoodEv])
  | skipUnchanged f => exact absurd h (by simp [GoodEv])
  | emptyText f => exact absurd h (by simp [GoodEv])
  | commit f d => exact absurd h (by simp [GoodEv])
  | fileError f => exact absurd h (by simp [GoodEv])

theorem goodEv_not_commit {env : Env} {ids : List String} {file : String} {e : Ev}
    (h : GoodEv env ids file e) (f : String) : isCommitOf f e = false := by
  rcases goodEv_cases h with ⟨u, c, he, _⟩ | ⟨u, v, he, _⟩ | ⟨b, ok, he, _⟩ <;>
    rw [he] <;> rfl

theorem goodEv_not_fileError {env : Env} {ids : List String} {file : String} {e : Ev}
    (h : GoodEv env ids file e) (f : String) : e ≠ Ev.fileError f := by
  rcases goodEv_cases h with ⟨u, c, he, _⟩ | ⟨u, v, he, _⟩ | ⟨b, ok, he, _⟩ <;>
    rw [he] <;> intro hc <;> exact Ev.noConfusion hc

theorem goodEv_not_skip {env : Env} {ids : List String} {file : String} {e : Ev}
    (h : GoodEv env ids file e) : isSkipEv e = false := by
  rcases goodEv_cases h with ⟨u, c, he, _⟩ | ⟨u, v, he, _⟩ | ⟨b, ok, he, _⟩ <;>
    rw [he] <;> rfl

theorem goodEv_avoids {env : Env} {ids : List String} {file uid : String} {e : Ev}
    (hu : ids.contains uid = true) (h : GoodEv env ids file e) :
    evAvoids uid e = true := by
  rcases goodEv_cases h with ⟨u, c, he, _, hcf⟩ | ⟨u, v, he, hcf⟩ | ⟨b, ok, he, hg, _⟩ <;>
    rw [he]
  · simp [evAvoids, beq_eq_false_iff_ne.mpr (Ne.symm (contained_ne hu hcf))]
  · simp [evAvoids, beq_eq_false_iff_ne.mpr (Ne.symm (contained_ne hu hcf))]
  · simp only [evAvoids, List.all_eq_true]
    intro r hr
    simp [beq_eq_false_iff_ne.mpr (Ne.symm (contained_ne hu (hg r hr).2.2))]

theorem goodEv_not_touches {env : Env} {ids : List String} {file name : String} {e : Ev}
    (hne : file ≠ name) (h : GoodEv env ids file e) : evTouches name e = false := by
  rcases goodEv_cases h with ⟨u, c, he, _⟩ | ⟨u, v, he, _⟩ | ⟨b, ok, he, hg, _⟩ <;> rw [he]
  · simp [evTouches, beq_eq_false_iff_ne.mpr hne]
  · simp [evTouches, beq_eq_false_iff_ne.mpr hne]
  · simp only [evTouches]
    rw [Bool.eq_false_iff]
    intro hc
    rw [List.any_eq_true] at hc
    obtain ⟨r, hr, hrn⟩ := hc
    have h2 : r.source = name := by simpa using hrn
    exact hne (((hg r hr).1).symm.trans h2)

theorem commitOnlyLast_of_no_commit {f : String} :
    ∀ {l : List Ev}, (∀ e ∈ l, isCommitOf f e = false) → commitOnlyLast f l = true := by
  intro l
  induction l with
  | nil => intro _; rfl
  | cons e rest ih =>
    intro h
    simp only [commitOnlyLast]
    rw [if_neg (by rw [h e (List.mem_cons_self _ _)]; exact Bool.noConfusion)]
    exact ih fun x hx => h x (List.mem_cons_of_mem _ hx)

theorem commitOnlyLast_append {f : String} :
    ∀ {l m : List Ev}, (∀ e ∈ l, isCommitOf f e = false) →
      commitOnlyLast f m = true → commitOnlyLast f (l ++ m) = true := by
  intro l
  induction l with
  | nil => intro m _ hm; exact hm
  | cons e rest ih =>
    intro m h hm
    simp only [List.cons_append, commitOnlyLast]
    rw [if_neg (by rw [h e (List.mem_cons_self _ _)]; exact Bool.noConfusion)]
    exact ih (fun x hx => h x (List.mem_cons_of_mem _ hx)) hm

theorem commitOnlyLast_single {f : String} (d : String) :
    commitOnlyLast f [Ev.commit f d] = true := by
  simp only [commitOnlyLast]
  split
  · rfl
  · rfl

theorem flushSizesOk_append :
    ∀ {l m : List Ev},
      (∀ e ∈ l, ∀ b ok, e = Ev.flush b ok → b.length = BATCH_SIZE) →
      flushSizesOk m = true → flushSizesOk (l ++ m) = true := by
  intro l
  induction l with
  | nil => intro m _ hm; exact hm
  | cons e rest ih =>
    intro m h hm
    cases e with
    | flush b ok =>
      have hb : b.length = BATCH_SIZE := h _ (List.mem_cons_self _ _) b ok rfl
      simp only [List.cons_append, flushSizesOk]
      rw [Bool.and_eq_true, Bool.and_eq_true, Bool.and_eq_true]
      refine ⟨⟨⟨?_, ?_⟩, ?_⟩, ih (fun x hx => h x (List.mem_cons_of_mem _ hx)) hm⟩
      · simp [hb, BATCH_SIZE]
      · simp [hb]
      · simp [hb]
    | readFile f d => exact ih (fun x hx => h x (List.mem_cons_of_mem _ hx)) hm
    | skipUnchanged f => exact ih (fun x hx => h x (List.mem_cons_of_mem _ hx)) hm
    | emptyText f => exact ih (fun x hx => h x (List.mem_cons_of_mem _ hx)) hm
    | embedCall f u c => exact ih (fun x hx => h x (List.mem_cons_of_mem _ hx)) hm
    | cacheWrite f u v => exact ih (fun x hx => h x (List.mem_cons_of_mem _ hx)) hm
    | commit f d => exact ih (fun x hx => h x (List.mem_cons_of_mem _ hx)) hm
    | fileError f => exact ih (fun x hx => h x (List.mem_cons_of_mem _ hx)) hm

theorem flushSizesOk_drain {env : Env} {ids : List String} {file : String}
    {dfl : List Ev} (h : DrainOk env ids file dfl) (tail : List Ev)
    (htail : tail.any isFlushEv = false) (htail2 : flushSizesOk tail = true) :
    flushSizesOk (dfl ++ tail) = true := by
  cases dfl with
  | nil => exact htail2
  | cons e rest =>
    cases e with
    | flush b ok =>
      cases rest with
      | nil =>
        obtain ⟨_, h1, h2⟩ := h
        simp only [List.cons_append, List.nil_append, flushSizesOk]
        rw [Bool.and_eq_true, Bool.and_eq_true, Bool.and_eq_true]
        refine ⟨⟨⟨by simpa using h1, by simp [Nat.le_of_lt h2]⟩, ?_⟩, htail2⟩
        simp [htail]
      | cons e2 rest2 => exact absurd h (by simp [DrainOk])
    | readFile f d => exact absurd h (by simp [DrainOk])
    | skipUnchanged f => exact absurd h (by simp [DrainOk])
    | emptyText f => exact absurd h (by simp [DrainOk])
    | embedCall f u c => exact absurd h (by simp [DrainOk])
    | cacheWrite f u v => exact absurd h (by simp [DrainOk])
    | commit f d => exact absurd h (by simp [DrainOk])
    | fileError f => exact absurd h (by simp [DrainOk])

theorem drainOk_not_commit {env : Env} {ids : List String} {file : String}
    {dfl : List Ev} (h : DrainOk env ids file dfl) (f : String) :
    ∀ e ∈ dfl, isCommitOf f e = false := by
  cases dfl with
  | nil => intro e he; exact absurd he (List.not_mem_nil e)
  | cons e2 rest =>
    cases e2 with
    | flush b ok =>
      cases rest with
      | nil =>
        intro e he
        rw [List.mem_singleton.mp he]
        rfl
      | cons e3 rest2 => exact absurd h (by simp [DrainOk])
    | readFile f2 d => exact absurd h (by simp [DrainOk])
    | skipUnchanged f2 => exact absurd h (by simp [DrainOk])
    | emptyText f2 => exact absurd h (by simp [DrainOk])
    | embedCall f2 u c => exact absurd h (by simp [DrainOk])
    | cacheWrite f2 u v => exact absurd h (by simp [DrainOk])
    | commit f2 d => exact absurd h (by simp [DrainOk])
    | fileError f2 => exact absurd h (by simp [DrainOk])

theorem drainOk_recs {env : Env} {ids : List String} {file : String}
    {dfl : List Ev} (h : DrainOk env ids file dfl) :
    ∀ e ∈ dfl, ∃ b ok, e = Ev.flush b ok ∧ ∀ r ∈ b, GoodRec env ids file r := by
  cases dfl with
  | nil => intro e he; exact absurd he (List.not_mem_nil e)
  | cons e2 rest =>
    cases e2 with
    | flush b ok =>
      cases rest with
      | nil =>
        intro e he
        rw [List.mem_singleton.mp he]
        exact ⟨b, ok, rfl, h.1⟩
      | cons e3 rest2 => exact absurd h (by simp [DrainOk])
    | readFile f2 d => exact absurd h (by simp [DrainOk])
    | skipUnchanged f2 => exact absurd h (by simp [DrainOk])
    | emptyText f2 => exact absurd h (by simp [DrainOk])
    | embedCall f2 u c => exact absurd h (by simp [DrainOk])
    | cacheWrite f2 u v => exact absurd h (by simp [DrainOk])
    | commit f2 d => exact absurd h (by simp [DrainOk])
    | fileError f2 => exact absurd h (by simp [DrainOk])

theorem process_file_skip (env : Env) (ids : List String) (st : RunState)
    (file : String) (content : List Nat)
    (h : st.hashIndex.lookup file = some (hash_file env content)) :
    process_file env ids st file content =
      { st with trace := st.trace ++ [Ev.readFile file (hash_file env content),
         Ev.skipUnchanged file] } := by
  rcases process_file_shape env ids st file content with
    ⟨_, heq⟩ | ⟨hne, _⟩ | ⟨hne, _⟩ | ⟨hne, _⟩ | ⟨hne, _⟩
  · exact heq
  all_goals exact absurd h hne

theorem drainBuf_sim (env : Env) (g : List ChunkRec → Bool) (a b : ChunkAcc)
    (h : AccSim a b) : AccSim (drainBuf env a) (drainBuf (setAddOk env g) b) := by
  obtain ⟨hbuf, hcache, hadded, hevs⟩ := h
  obtain ⟨abuf, acfs, acoll, aadd, aevs⟩ := a
  obtain ⟨bbuf, bcfs, bcoll, badd, bevs⟩ := b
  dsimp only at hbuf hcache hadded hevs
  subst hbuf; subst hcache; subst hadded
  simp only [drainBuf, flushBuf, setAddOk]
  by_cases he : abuf.isEmpty = true
  · rw [if_pos he, if_pos he]
    exact ⟨rfl, rfl, rfl, hevs⟩
  · rw [if_neg he, if_neg he]
    refine ⟨rfl, rfl, rfl, ?_⟩
    dsimp only
    rw [List.map_append, List.map_append, hevs]
    rfl

theorem process_file_sim (env : Env) (g : List ChunkRec → Bool) (ids : List String)
    (file : String) (content : List Nat) (s t : RunState) (h : StSim s t) :
    StSim (process_file env ids s file content)
      (process_file (setAddOk env g) ids t file content) := by
  obtain ⟨hidx, hhash, hcfs, hadd, htr⟩ := h
  obtain ⟨sif, shi, scf, sco, sta, str⟩ := s
  obtain ⟨tif, thi, tcf, tco, tta, ttr⟩ := t
  dsimp only at hidx hhash hcfs hadd htr
  subst hidx; subst hhash; subst hcfs; subst hadd
  have hmap2 : ∀ (l : List Ev), (str ++ l).map eraseOk = (ttr ++ l).map eraseOk := by
    intro l
    rw [List.map_append, List.map_append, htr]
  have hb : (setAddOk env g).hashBytes = env.hashBytes := rfl
  have he2 : (setAddOk env g).extract = env.extract := rfl
  have hs2 : (setAddOk env g).split = env.split := rfl
  simp only [process_file, hash_file, extract_text, split_text_semantically]
  rw [hb, he2, hs2]
  by_cases hskip : List.lookup file shi = some (env.hashBytes content)
  · rw [if_pos hskip, if_pos hskip]
    refine ⟨rfl, rfl, rfl, rfl, ?_⟩
    simp only [List.map_append, htr]
  · rw [if_neg hskip, if_neg hskip]
    cases hex : env.extract content with
    | error e =>
      dsimp only
      refine ⟨rfl, rfl, rfl, rfl, ?_⟩
      simp only [List.map_append, htr]
    | ok text =>
      dsimp only
      by_cases hempty : pyStrip text = ""
      · rw [if_pos hempty, if_pos hempty]
        refine ⟨rfl, rfl, rfl, rfl, ?_⟩
        simp only [List.map_append, htr]
      · rw [if_neg hempty, if_neg hempty]
        have hsim := process_chunks_sim env g ids file (env.split (clean_text text))
          { buf := [], cacheFS := scf, coll := sco, added := 0, evs := [] }
          { buf := [], cacheFS := scf, coll := tco, added := 0, evs := [] }
          ⟨rfl, rfl, rfl, rfl⟩
        cases h1 : process_chunks env ids file
            { buf := [], cacheFS := scf, coll := sco, added := 0, evs := [] }
            (env.split (clean_text text)) with
        | err a =>
          cases h2 : process_chunks (setAddOk env g) ids file
              { buf := [], cacheFS := scf, coll := tco, added := 0, evs := [] }
              (env.split (clean_text text)) with
          | err b =>
            rw [h1, h2] at hsim
            obtain ⟨_, hac, haa, hae⟩ := hsim
            dsimp only
            refine ⟨rfl, rfl, hac, by rw [haa], ?_⟩
            simp only [List.map_append, htr, hae]
          | ok b =>
            rw [h1, h2] at hsim
            exact absurd hsim (by simp [resSim])
        | ok a =>
          cases h2 : process_chunks (setAddOk env g) ids file
              { buf := [], cacheFS := scf, coll := tco, added := 0, evs := [] }
              (env.split (clean_text text)) with
          | err b =>
            rw [h1, h2] at hsim
            exact absurd hsim (by simp [resSim])
          | ok b =>
            rw [h1, h2] at hsim
            have hd := drainBuf_sim env g a b hsim
            obtain ⟨_, hdc, hda, hde⟩ := hd
            dsimp only
            refine ⟨rfl, rfl, hdc, by rw [hda], ?_⟩
            simp only [List.map_append, htr, hde]

theorem fold_files_sim (env : Env) (g : List ChunkRec → Bool) (ids : List String) :
    ∀ (files : List (String × List Nat)) (s t : RunState), StSim s t →
      StSim (files.foldl (fun st f => process_file env ids st f.1 f.2) s)
        (files.foldl (fun st f => process_file (setAddOk env g) ids st f.1 f.2) t) := by
  intro files
  induction files with
  | nil => intro s t h; exact h
  | cons f fs ih =>
    intro s t h
    simp only [List.foldl_cons]
    exact ih _ _ (process_file_sim env g ids f.1 f.2 s t h)

theorem process_pdfs_sim (env : Env) (g : List ChunkRec → Bool) (idx : IndexFile)
    (folder : List (String × List Nat)) (cacheFS : List (String × CacheFile))
    (coll : List ChunkRec) :
    StSim (process_pdfs env idx folder cacheFS coll)
      (process_pdfs (setAddOk env g) idx folder cacheFS coll) := by
  simp only [process_pdfs]
  by_cases hemp : (pdfFiles folder).isEmpty = true
  · rw [if_pos hemp, if_pos hemp]
    exact ⟨rfl, rfl, rfl, rfl, rfl⟩
  · rw [if_neg hemp, if_neg hemp]
    exact fold_files_sim env g (startIds coll) (pdfFiles folder) _ _
      ⟨rfl, rfl, rfl, rfl, rfl⟩

theorem drainOk_not_touches {env : Env} {ids : List String} {file name : String}
    {dfl : List Ev} (h : DrainOk env ids file dfl) (hne : file ≠ name) :
    ∀ e ∈ dfl, evTouches name e = false := by
  intro e he
  obtain ⟨b, ok, heq, hg⟩ := drainOk_recs h e he
  rw [heq]
  simp only [evTouches]
  rw [Bool.eq_false_iff]
  intro hc
  rw [List.any_eq_true] at hc
  obtain ⟨r, hr, hrn⟩ := hc
  have h2 : r.source = name := by simpa using hrn
  exact hne (((hg r hr).1).symm.trans h2)

theorem drainOk_avoids {env : Env} {ids : List String} {file uid : String}
    {dfl : List Ev} (h : DrainOk env ids file dfl) (hu : ids.contains uid = true) :
    ∀ e ∈ dfl, evAvoids uid e = true := by
  intro e he
  obtain ⟨b, ok, heq, hg⟩ := drainOk_recs h e he
  rw [heq]
  simp only [evAvoids, List.all_eq_true]
  intro r hr
  simp [beq_eq_false_iff_ne.mpr (Ne.symm (contained_ne hu (hg r hr).2.2))]

theorem process_file_trace_cons (env : Env) (ids : List String) (st : RunState)
    (file : String) (content : List Nat) :
    ∃ seg, (process_file env ids st file content).trace =
      st.trace ++ Ev.readFile file (hash_file env content) :: seg := by
  rcases process_file_shape env ids st file content with
    ⟨_, heq⟩ | ⟨_, heq⟩ | ⟨_, heq⟩ | ⟨_, _, _, _, _, _, _, heq⟩ |
    ⟨_, _, _, _, _, _, _, _, _, heq⟩ <;> rw [heq]
  · exact ⟨[Ev.skipUnchanged file], rfl⟩
  · exact ⟨[Ev.fileError file], rfl⟩
  · exact ⟨[Ev.emptyText file], rfl⟩
  · exact ⟨_, rfl⟩
  · exact ⟨_, rfl⟩

theorem process_file_frame (env : Env) (ids : List String) (st : RunState)
    (file : String) (content : List Nat) (name : String) (hne : file ≠ name) :
    ((process_file env ids st file content).hashIndex.lookup name =
      st.hashIndex.lookup name) ∧
    (∀ r ∈ (process_file env ids st file content).coll, r.source = name → r ∈ st.coll) ∧
    (∀ e ∈ (process_file env ids st file content).trace,
      e ∈ st.trace ∨ evTouches name e = false) := by
  have hbne : (file == name) = false := beq_eq_false_iff_ne.mpr hne
  rcases process_file_shape env ids st file content with
    ⟨_, heq⟩ | ⟨_, heq⟩ | ⟨_, heq⟩ | ⟨_, evs, cfs, co, n, hgev, hrel, heq⟩ |
    ⟨_, evs, dfl, cfs, co, n, hgev, hdok, hrel, heq⟩ <;> rw [heq]
  · refine ⟨rfl, fun r hr _ => hr, ?_⟩
    intro e he
    rcases List.mem_append.mp he with h | h
    · exact Or.inl h
    · right
      rcases List.mem_cons.mp h with h1 | h1
      · rw [h1]; simp [evTouches, hbne]
      · rw [List.mem_singleton.mp h1]; simp [evTouches, hbne]
  · refine ⟨rfl, fun r hr _ => hr, ?_⟩
    intro e he
    rcases List.mem_append.mp he with h | h
    · exact Or.inl h
    · right
      rcases List.mem_cons.mp h with h1 | h1
      · rw [h1]; simp [evTouches, hbne]
      · rw [List.mem_singleton.mp h1]; simp [evTouches, hbne]
  · refine ⟨rfl, fun r hr _ => hr, ?_⟩
    intro e he
    rcases List.mem_append.mp he with h | h
    · exact Or.inl h
    · right
      rcases List.mem_cons.mp h with h1 | h1
      · rw [h1]; simp [evTouches, hbne]
      · rw [List.mem_singleton.mp h1]; simp [evTouches, hbne]
  · refine ⟨rfl, ?_, ?_⟩
    · intro r hr hsrc
      rcases hrel.2.2.2 r hr with h | h
      · exact h
      · exact absurd hsrc (h.1 ▸ hne)
    · intro e he
      rcases List.mem_append.mp he with h | h
      · exact Or.inl h
      · right
        rcases List.mem_cons.mp h with h1 | h1
        · rw [h1]; simp [evTouches, hbne]
        · rcases List.mem_append.mp h1 with h2 | h2
          · exact goodEv_not_touches hne (hgev e h2)
          · rw [List.mem_singleton.mp h2]; simp [evTouches, hbne]
  · refine ⟨?_, ?_, ?_⟩
    · exact lookup_setEntry_ne file name _ _ (Ne.symm hne)
    · intro r hr hsrc
      rcases hrel.2.2.2 r hr with h | h
      · exact h
      · exact absurd hsrc (h.1 ▸ hne)
    · intro e he
      rcases List.mem_append.mp he with h | h
      · exact Or.inl h
      · right
        rcases List.mem_cons.mp h with h1 | h1
        · rw [h1]; simp [evTouches, hbne]
        · rcases List.mem_append.mp h1 with h2 | h2
          · exact goodEv_not_touches hne (hgev e h2)
          · rcases List.mem_append.mp h2 with h3 | h3
            · exact drainOk_not_touches hdok hne e h3
            · rw [List.mem_singleton.mp h3]; simp [evTouches, hbne]

theorem process_file_avoid (env : Env) (ids : List String) (st : RunState)
    (file : String) (content : List Nat) (uid : String)
    (hu : ids.contains uid = true) :
    ((process_file env ids st file content).cacheFS.lookup uid =
      st.cacheFS.lookup uid) ∧
    (collGet (process_file env ids st file content).coll uid = collGet st.coll uid) ∧
    ((collIds st.coll).Nodup →
      (collIds (process_file env ids st file content).coll).Nodup) ∧
    (∀ e ∈ (process_file env ids st file content).trace,
      e ∈ st.trace ∨ evAvoids uid e = true) := by
  rcases process_file_shape env ids st file content with
    ⟨_, heq⟩ | ⟨_, heq⟩ | ⟨_, heq⟩ | ⟨_, evs, cfs, co, n, hgev, hrel, heq⟩ |
    ⟨_, evs, dfl, cfs, co, n, hgev, hdok, hrel, heq⟩ <;> rw [heq]
  · refine ⟨rfl, rfl, fun h => h, ?_⟩
    intro e he
    rcases List.mem_append.mp he with h | h
    · exact Or.inl h
    · right
      rcases List.mem_cons.mp h with h1 | h1
      · rw [h1]; rfl
      · rw [List.mem_singleton.mp h1]; rfl
  · refine ⟨rfl, rfl, fun h => h, ?_⟩
    intro e he
    rcases List.mem_append.mp he with h | h
    · exact Or.inl h
    · right
      rcases List.mem_cons.mp h with h1 | h1
      · rw [h1]; rfl
      · rw [List.mem_singleton.mp h1]; rfl
  · refine ⟨rfl, rfl, fun h => h, ?_⟩
    intro e he
    rcases List.mem_append.mp he with h | h
    · exact Or.inl h
    · right
      rcases List.mem_cons.mp h with h1 | h1
      · rw [h1]; rfl
      · rw [List.mem_singleton.mp h1]; rfl
  · refine ⟨hrel.1 uid hu, hrel.2.1 uid hu, hrel.2.2.1, ?_⟩
    intro e he
    rcases List.mem_append.mp he with h | h
    · exact Or.inl h
    · right
      rcases List.mem_cons.mp h with h1 | h1
      · rw [h1]; rfl
      · rcases List.mem_append.mp h1 with h2 | h2
        · exact goodEv_avoids hu (hgev e h2)
        · rw [List.mem_singleton.mp h2]; rfl
  · refine ⟨hrel.1 uid hu, hrel.2.1 uid hu, hrel.2.2.1, ?_⟩
    intro e he
    rcases List.mem_append.mp he with h | h
    · exact Or.inl h
    · right
      rcases List.mem_cons.mp h with h1 | h1
      · rw [h1]; rfl
      · rcases List.mem_append.mp h1 with h2 | h2
        · exact goodEv_avoids hu (hgev e h2)
        · rcases List.mem_append.mp h2 with h3 | h3
          · exact drainOk_avoids hdok hu e h3
          · rw [List.mem_singleton.mp h3]; rfl

theorem process_file_noskip (env : Env) (ids : List String) (st : RunState)
    (file : String) (content : List Nat)
    (h : st.hashIndex.lookup file ≠ some (hash_file env content)) :
    (∀ e ∈ (process_file env ids st file content).trace,
      e ∈ st.trace ∨ isSkipEv e = false) ∧
    ((process_file env ids st file content).hashIndex = st.hashIndex ∨
      (process_file env ids st file content).hashIndex =
        setEntry file (hash_file env content) st.hashIndex) := by
  rcases process_file_shape env ids st file content with
    ⟨hs, _⟩ | ⟨_, heq⟩ | ⟨_, heq⟩ | ⟨_, evs, cfs, co, n, hgev, hrel, heq⟩ |
    ⟨_, evs, dfl, cfs, co, n, hgev, hdok, hrel, heq⟩
  · exact absurd hs h
  all_goals rw [heq]
  · refine ⟨?_, Or.inl rfl⟩
    intro e he
    rcases List.mem_append.mp he with h1 | h1
    · exact Or.inl h1
    · right
      rcases List.mem_cons.mp h1 with h2 | h2
      · rw [h2]; rfl
      · rw [List.mem_singleton.mp h2]; rfl
  · refine ⟨?_, Or.inl rfl⟩
    intro e he
    rcases List.mem_append.mp he with h1 | h1
    · exact Or.inl h1
    · right
      rcases List.mem_cons.mp h1 with h2 | h2
      · rw [h2]; rfl
      · rw [List.mem_singleton.mp h2]; rfl
  · refine ⟨?_, Or.inl rfl⟩
    intro e he
    rcases List.mem_append.mp he with h1 | h1
    · exact Or.inl h1
    · right
      rcases List.mem_cons.mp h1 with h2 | h2
      · rw [h2]; rfl
      · rcases List.mem_append.mp h2 with h3 | h3
        · exact goodEv_not_skip (hgev e h3)
        · rw [List.mem_singleton.mp h3]; rfl
  · refine ⟨?_, Or.inr rfl⟩
    intro e he
    rcases List.mem_append.mp he with h1 | h1
    · exact Or.inl h1
    · right
      rcases List.mem_cons.mp h1 with h2 | h2
      · rw [h2]; rfl
      · rcases List.mem_append.mp h2 with h3 | h3
        · exact goodEv_not_skip (hgev e h3)
        · rcases List.mem_append.mp h3 with h4 | h4
          · obtain ⟨b, ok, heq2, _⟩ := drainOk_recs hdok e h4
            rw [heq2]; rfl
          · rw [List.mem_singleton.mp h4]; rfl

theorem process_file_trace_ext (env : Env) (ids : List String) (st : RunState)
    (file : String) (content : List Nat) :
    ∃ seg, (process_file env ids st file content).trace = st.trace ++ seg := by
  obtain ⟨seg, h⟩ := process_file_trace_cons env ids st file content
  exact ⟨_, h⟩

theorem fold_trace_ext (env : Env) (ids : List String) :
    ∀ (files : List (String × List Nat)) (s : RunState),
      ∃ seg, (files.foldl (fun st f => process_file env ids st f.1 f.2) s).trace =
        s.trace ++ seg := by
  intro files
  induction files with
  | nil => intro s; exact ⟨[], by simp⟩
  | cons f fs ih =>
    intro s
    simp only [List.foldl_cons]
    obtain ⟨seg1, h1⟩ := process_file_trace_ext env ids s f.1 f.2
    obtain ⟨seg2, h2⟩ := ih (process_file env ids s f.1 f.2)
    exact ⟨seg1 ++ seg2, by rw [h2, h1, List.append_assoc]⟩

theorem fold_readFile (env : Env) (ids : List String) :
    ∀ (files : List (String × List Nat)) (s : RunState) (p : String × List Nat),
      p ∈ files →
      ∃ d, Ev.readFile p.1 d ∈
        (files.foldl (fun st f => process_file env ids st f.1 f.2) s).trace := by
  intro files
  induction files with
  | nil => intro s p hp; exact absurd hp (List.not_mem_nil p)
  | cons f fs ih =>
    intro s p hp
    simp only [List.foldl_cons]
    rcases List.mem_cons.mp hp with h | h
    · subst h
      obtain ⟨seg2, h2⟩ := fold_trace_ext env ids fs (process_file env ids s p.1 p.2)
      obtain ⟨seg1, h1⟩ := process_file_trace_cons env ids s p.1 p.2
      refine ⟨hash_file env p.2, ?_⟩
      rw [h2, h1]
      apply List.mem_append.mpr
      left
      apply List.mem_append.mpr
      right
      exact List.mem_cons_self _ _
    · exact ih _ p h

theorem fold_all_skip (env : Env) (ids : List String) :
    ∀ (files : List (String × List Nat)) (s : RunState),
      (∀ p ∈ files, s.hashIndex.lookup p.1 = some (hash_file env p.2)) →
      ((files.foldl (fun st f => process_file env ids st f.1 f.2) s).hashIndex =
        s.hashIndex) ∧
      ((files.foldl (fun st f => process_file env ids st f.1 f.2) s).indexFile =
        s.indexFile) ∧
      ((files.foldl (fun st f => process_file env ids st f.1 f.2) s).cacheFS =
        s.cacheFS) ∧
      ((files.foldl (fun st f => process_file env ids st f.1 f.2) s).coll = s.coll) ∧
      ((files.foldl (fun st f => process_file env ids st f.1 f.2) s).totalAdded =
        s.totalAdded) ∧
      (∀ p ∈ files, Ev.skipUnchanged p.1 ∈
        (files.foldl (fun st f => process_file env ids st f.1 f.2) s).trace) ∧
      (∀ e ∈ (files.foldl (fun st f => process_file env ids st f.1 f.2) s).trace,
        e ∈ s.trace ∨ isSkipEv e = true ∨ ∃ f d, e = Ev.readFile f d) := by
  intro files
  induction files with
  | nil =>
    intro s _
    exact ⟨rfl, rfl, rfl, rfl, rfl, fun p hp => absurd hp (List.not_mem_nil p),
      fun e he => Or.inl he⟩
  | cons f fs ih =>
    intro s h
    simp only [List.foldl_cons]
    rw [process_file_skip env ids s f.1 f.2 (h f (List.mem_cons_self _ _))]
    obtain ⟨ih1, ih2, ih3, ih4, ih5, ih6, ih7⟩ := ih
      { s with trace := s.trace ++ [Ev.readFile f.1 (hash_file env f.2),
          Ev.skipUnchanged f.1] }
      (fun p hp => h p (List.mem_cons_of_mem _ hp))
    refine ⟨ih1, ih2, ih3, ih4, ih5, ?_, ?_⟩
    · intro p hp
      rcases List.mem_cons.mp hp with h1 | h1
      · subst h1
        obtain ⟨seg2, h2⟩ := fold_trace_ext env ids fs
          { s with trace := s.trace ++ [Ev.readFile p.1 (hash_file env p.2),
              Ev.skipUnchanged p.1] }
        rw [h2]
        apply List.mem_append.mpr
        left
        apply List.mem_append.mpr
        right
        exact List.mem_cons_of_mem _ (List.mem_cons_self _ _)
      · exact ih6 p h1
    · intro e he
      rcases ih7 e he with h1 | h1
      · rcases List.mem_append.mp h1 with h2 | h2
        · exact Or.inl h2
        · rcases List.mem_cons.mp h2 with h3 | h3
          · exact Or.inr (Or.inr ⟨f.1, hash_file env f.2, h3⟩)
          · rw [List.mem_singleton.mp h3]
            exact Or.inr (Or.inl rfl)
      · exact Or.inr h1

theorem fold_frame (env : Env) (ids : List String) (name : String) :
    ∀ (files : List (String × List Nat)) (s : RunState),
      (∀ p ∈ files, p.1 ≠ name) →
      ((files.foldl (fun st f => process_file env ids st f.1 f.2) s).hashIndex.lookup
        name = s.hashIndex.lookup name) ∧
      (∀ r ∈ (files.foldl (fun st f => process_file env ids st f.1 f.2) s).coll,
        r.source = name → r ∈ s.coll) ∧
      (∀ e ∈ (files.foldl (fun st f => process_file env ids st f.1 f.2) s).trace,
        e ∈ s.trace ∨ evTouches name e = false) := by
  intro files
  induction files with
  | nil => intro s _; exact ⟨rfl, fun r hr _ => hr, fun e he => Or.inl he⟩
  | cons f fs ih =>
    intro s h
    simp only [List.foldl_cons]
    have hstep := process_file_frame env ids s f.1 f.2 name (h f (List.mem_cons_self _ _))
    obtain ⟨ih1, ih2, ih3⟩ := ih (process_file env ids s f.1 f.2)
      (fun p hp => h p (List.mem_cons_of_mem _ hp))
    refine ⟨ih1.trans hstep.1, ?_, ?_⟩
    · intro r hr hsrc
      exact hstep.2.1 r (ih2 r hr hsrc) hsrc
    · intro e he
      rcases ih3 e he with h1 | h1
      · exact hstep.2.2 e h1
      · exact Or.inr h1

theorem fold_skipname (env : Env) (ids : List String) (name d0 : String) :
    ∀ (files : List (String × List Nat)) (s : RunState),
      (∀ p ∈ files, p.1 = name → hash_file env p.2 = d0) →
      s.hashIndex.lookup name = some d0 →
      (∀ r ∈ s.coll, r.source ≠ name) →
      ((files.foldl (fun st f => process_file env ids st f.1 f.2) s).hashIndex.lookup
        name = some d0) ∧
      (∀ r ∈ (files.foldl (fun st f => process_file env ids st f.1 f.2) s).coll,
        r.source ≠ name) := by
  intro files
  induction files with
  | nil => intro s _ hidx hcoll; exact ⟨hidx, hcoll⟩
  | cons f fs ih =>
    intro s hfiles hidx hcoll
    simp only [List.foldl_cons]
    by_cases hfn : f.1 = name
    · have hlk : s.hashIndex.lookup f.1 = some (hash_file env f.2) := by
        rw [hfn, hfiles f (List.mem_cons_self _ _) hfn]
        exact hidx
      rw [process_file_skip env ids s f.1 f.2 hlk]
      exact ih _ (fun p hp => hfiles p (List.mem_cons_of_mem _ hp)) hidx hcoll
    · have hstep := process_file_frame env ids s f.1 f.2 name hfn
      apply ih _ (fun p hp => hfiles p (List.mem_cons_of_mem _ hp))
      · rw [hstep.1]
        exact hidx
      · intro r hr hsrc
        exact hcoll r (hstep.2.1 r hr hsrc) hsrc

theorem fold_avoid (env : Env) (ids : List String) (uid : String)
    (hu : ids.contains uid = true) :
    ∀ (files : List (String × List Nat)) (s : RunState),
      ((files.foldl (fun st f => process_file env ids st f.1 f.2) s).cacheFS.lookup
        uid = s.cacheFS.lookup uid) ∧
      (collGet (files.foldl (fun st f => process_file env ids st f.1 f.2) s).coll uid
        = collGet s.coll uid) ∧
      ((collIds s.coll).Nodup →
        (collIds (files.foldl (fun st f => process_file env ids st f.1 f.2) s).coll).Nodup) ∧
      (∀ e ∈ (files.foldl (fun st f => process_file env ids st f.1 f.2) s).trace,
        e ∈ s.trace ∨ evAvoids uid e = true) := by
  intro files
  induction files with
  | nil => intro s; exact ⟨rfl, rfl, fun h => h, fun e he => Or.inl he⟩
  | cons f fs ih =>
    intro s
    simp only [List.foldl_cons]
    have hstep := process_file_avoid env ids s f.1 f.2 uid hu
    obtain ⟨ih1, ih2, ih3, ih4⟩ := ih (process_file env ids s f.1 f.2)
    refine ⟨ih1.trans hstep.1, ih2.trans hstep.2.1, fun hn => ih3 (hstep.2.2.1 hn), ?_⟩
    intro e he
    rcases ih4 e he with h1 | h1
    · exact hstep.2.2.2 e h1
    · exact Or.inr h1

theorem fold_noskip (env : Env) (ids : List String) :
    ∀ (files : List (String × List Nat)) (s : RunState),
      (∀ p ∈ files, s.hashIndex.lookup p.1 = none) →
      (files.map Prod.fst).Nodup →
      ∀ e ∈ (files.foldl (fun st f => process_file env ids st f.1 f.2) s).trace,
        e ∈ s.trace ∨ isSkipEv e = false := by
  intro files
  induction files with
  | nil => intro s _ _ e he; exact Or.inl he
  | cons f fs ih =>
    intro s h hnd e
    simp only [List.foldl_cons]
    have hne : s.hashIndex.lookup f.1 ≠ some (hash_file env f.2) := by
      rw [h f (List.mem_cons_self _ _)]
      exact Option.noConfusion
    have hstep := process_file_noskip env ids s f.1 f.2 hne
    rw [List.map_cons, List.nodup_cons] at hnd
    intro he
    have ihapp := ih (process_file env ids s f.1 f.2) ?_ hnd.2 e he
    · rcases ihapp with h1 | h1
      · exact hstep.1 e h1
      · exact Or.inr h1
    · intro p hp
      rcases hstep.2 with h2 | h2
      · rw [h2]
        exact h p (List.mem_cons_of_mem _ hp)
      · rw [h2, lookup_setEntry_ne f.1 p.1 _ _ ?_]
        · exact h p (List.mem_cons_of_mem _ hp)
        · intro hc
          exact hnd.1 (hc ▸ List.mem_map_of_mem Prod.fst hp)

/-- C1, counterexample: the claim "the commit happens ... never when a write
failed" is false on the code.  With every batch write failing (`failAddEnv`,
realizing a Chroma `add` that raises, which `_add_batch` swallows), the run
over `folder1` still emits the hash-index commit for `a.pdf`: its trace
contains a failed flush and, after it, a commit for that file. -/
theorem C1_counterexample :
    ((process_pdfs failAddEnv IndexFile.missing folder1 [] []).trace.any
      isFailedFlush = true) ∧
    ((process_pdfs failAddEnv IndexFile.missing folder1 [] []).trace.any
      (isCommitOf "a.pdf") = true) := by
  exact ⟨by decide, by decide⟩

/-- C1, amended: for every file processed, the HashIndex commit is written
only after every one of that file's batch writes has been attempted — the
commit is the very last event of the file's processing segment — and it is
never written before them; but a failed batch write does not prevent it:
whether the commit happens is independent of the batch-write outcomes. -/
theorem C1_commit_after_write_attempts (env : Env) (ids : List String)
    (st : RunState) (file : String) (content : List Nat) :
    (commitOnlyLast file
      ((process_file env ids st file content).trace.drop st.trace.length) = true) ∧
    (∀ g, hasCommitFor file
        (process_file (setAddOk env g) ids st file content).trace =
      hasCommitFor file (process_file env ids st file content).trace) := by
  constructor
  · rcases process_file_shape env ids st file content with
      ⟨_, heq⟩ | ⟨_, heq⟩ | ⟨_, heq⟩ | ⟨_, evs, cfs, co, n, hgev, hrel, heq⟩ |
      ⟨_, evs, dfl, cfs, co, n, hgev, hdok, hrel, heq⟩ <;> rw [heq] <;> dsimp only <;>
      rw [List.drop_left]
    · apply commitOnlyLast_of_no_commit
      intro e he
      rcases List.mem_cons.mp he with h | h
      · rw [h]; rfl
      · rw [List.mem_singleton.mp h]; rfl
    · apply commitOnlyLast_of_no_commit
      intro e he
      rcases List.mem_cons.mp he with h | h
      · rw [h]; rfl
      · rw [List.mem_singleton.mp h]; rfl
    · apply commitOnlyLast_of_no_commit
      intro e he
      rcases List.mem_cons.mp he with h | h
      · rw [h]; rfl
      · rw [List.mem_singleton.mp h]; rfl
    · apply commitOnlyLast_of_no_commit
      intro e he
      rcases List.mem_cons.mp he with h | h
      · rw [h]; rfl
      · rcases List.mem_append.mp h with h1 | h1
        · exact goodEv_not_commit (hgev e h1) file
        · rw [List.mem_singleton.mp h1]; rfl
    · have hre : Ev.readFile file (hash_file env content) ::
          (evs ++ (dfl ++ [Ev.commit file (hash_file env content)])) =
          (Ev.readFile file (hash_file env content) :: (evs ++ dfl)) ++
            [Ev.commit file (hash_file env content)] := by
        simp [List.append_assoc]
      rw [hre]
      apply commitOnlyLast_append
      · intro e he
        rcases List.mem_cons.mp he with h | h
        · rw [h]; rfl
        · rcases List.mem_append.mp h with h1 | h1
          · exact goodEv_not_commit (hgev e h1) file
          · exact drainOk_not_commit hdok file e h1
      · exact commitOnlyLast_single _
  · intro g
    have hsim := process_file_sim env g ids file content st st ⟨rfl, rfl, rfl, rfl, rfl⟩
    exact (hasCommitFor_congr hsim.2.2.2.2).symm

/-- C2, counterexample: `reload_pdfs` does not re-ingest every file
regardless of prior HashIndex state.  With the HashIndex already recording
`a.pdf` at its current digest, the rebuilt collection stays empty — the
file's chunks are not reinserted — whereas the same reload with no index
entry does produce the file's chunk record. -/
theorem C2_counterexample :
    ((reload_pdfs testEnv (IndexFile.value [("a.pdf", "Ba")]) folder1 []
      (some [rec1])).coll = []) ∧
    ((reload_pdfs testEnv IndexFile.missing folder1 [] (some [rec1])).coll =
      [rec1]) := by
  exact ⟨by decide, by decide⟩

/-- C2, amended: `reload_pdfs` deletes any existing collection of the
configured name and re-ingests into a fresh empty one (it is exactly the
ordinary ingestion started from an empty collection), but the HashIndex
skip logic still applies: a file whose digest the HashIndex already records
is skipped, so its chunks are NOT reinserted into the new collection. -/
theorem C2_reload (env : Env) (idx : IndexFile)
    (folder : List (String × List Nat)) (cacheFS : List (String × CacheFile))
    (existing : Option (List ChunkRec)) (name : String) :
    (reload_pdfs env idx folder cacheFS existing =
      process_pdfs env idx folder cacheFS []) ∧
    ((∀ content, (name, content) ∈ pdfFiles folder →
        (load_hash_index idx).lookup name = some (hash_file env content)) →
      (∃ content, (name, content) ∈ pdfFiles folder) →
      ∀ r ∈ (reload_pdfs env idx folder cacheFS existing).coll,
        r.source ≠ name) := by
  refine ⟨rfl, ?_⟩
  intro hrec hex r hr hsrc
  obtain ⟨content0, hmem⟩ := hex
  have hne : (pdfFiles folder).isEmpty = false := by
    cases hpf : pdfFiles folder with
    | nil => rw [hpf] at hmem; exact absurd hmem (List.not_mem_nil _)
    | cons a l => rfl
  have hr2 : r ∈ (process_pdfs env idx folder cacheFS []).coll := hr
  rw [process_pdfs] at hr2
  rw [if_neg (by rw [hne]; exact Bool.noConfusion)] at hr2
  have hfold := fold_skipname env (startIds []) name (hash_file env content0)
    (pdfFiles folder)
    ⟨idx, load_hash_index idx, cacheFS, [], 0, []⟩
    ?_ ?_ ?_
  · exact hfold.2 r hr2 hsrc
  · intro p hp hpn
    have hp2 : (name, p.2) ∈ pdfFiles folder := by
      rw [← hpn]
      exact hp
    have h1 := hrec p.2 hp2
    have h2 := hrec content0 hmem
    rw [h1] at h2
    exact (Option.some.injEq _ _).mp h2
  · exact hrec content0 hmem
  · intro r2 hr2b
    exact absurd hr2b (List.not_mem_nil r2)

/-- C2 witness: a concrete reload over `folder1` with the HashIndex already
recording `a.pdf`: the rebuild starts from an empty collection and the
file's chunks are not reinserted. -/
theorem C2_reload_witness :
    (reload_pdfs testEnv (IndexFile.value [("a.pdf", "Ba")]) folder1 []
      (some [rec1]) =
      process_pdfs testEnv (IndexFile.value [("a.pdf", "Ba")]) folder1 [] []) ∧
    (∀ r ∈ (reload_pdfs testEnv (IndexFile.value [("a.pdf", "Ba")]) folder1 []
      (some [rec1])).coll, r.source ≠ "a.pdf") := by
  constructor
  · exact (C2_reload testEnv (IndexFile.value [("a.pdf", "Ba")]) folder1 []
      (some [rec1]) "a.pdf").1
  · apply (C2_reload testEnv (IndexFile.value [("a.pdf", "Ba")]) folder1 []
      (some [rec1]) "a.pdf").2
    · intro content hmem
      have hpf : pdfFiles folder1 = [("a.pdf", [97])] := by decide
      rw [hpf] at hmem
      have hc : content = [97] :=
        congrArg Prod.snd (List.mem_singleton.mp hmem)
      subst hc
      decide
    · exact ⟨[97], by decide⟩

/-- C3: a chunk id present in the collection at the start of a run is never
re-embedded and never re-inserted during that run (and hence in later runs,
which take their own snapshot of a collection still holding the id): the
whole trace avoids the id — no embedding call, no cache write, and no batch
record under it — the collection's entry for the id is unchanged, the
embedding-cache file for it is untouched, and no duplicate ids are
introduced into the collection. -/
theorem C3_snapshot_dedup (env : Env) (idx : IndexFile)
    (folder : List (String × List Nat)) (cacheFS : List (String × CacheFile))
    (coll : List ChunkRec) (uid : String)
    (hu : (startIds coll).contains uid = true) :
    ((process_pdfs env idx folder cacheFS coll).trace.all (evAvoids uid) = true) ∧
    (collGet (process_pdfs env idx folder cacheFS coll).coll uid =
      collGet coll uid) ∧
    ((process_pdfs env idx folder cacheFS coll).cacheFS.lookup uid =
      cacheFS.lookup uid) ∧
    ((collIds coll).Nodup →
      (collIds (process_pdfs env idx folder cacheFS coll).coll).Nodup) := by
  rw [process_pdfs]
  by_cases hemp : (pdfFiles folder).isEmpty = true
  · rw [if_pos hemp]
    exact ⟨rfl, rfl, rfl, fun h => h⟩
  · rw [if_neg hemp]
    have hfold := fold_avoid env (startIds coll) uid hu (pdfFiles folder)
      ⟨idx, load_hash_index idx, cacheFS, coll, 0, []⟩
    refine ⟨?_, hfold.2.1, hfold.1, hfold.2.2.1⟩
    rw [List.all_eq_true]
    intro e he
    rcases hfold.2.2.2 e he with h | h
    · exact absurd h (List.not_mem_nil e)
    · exact h

/-- C3 witness: a concrete run over `folder1` whose collection already holds
the id that `a.pdf`'s single chunk derives; the second run's trace avoids
the id and leaves the collection and cache entries for it unchanged. -/
theorem C3_witness :
    ((process_pdfs testEnv IndexFile.missing folder1 [] [rec1]).trace.all
      (evAvoids "Taa.pdf") = true) ∧
    (collGet (process_pdfs testEnv IndexFile.missing folder1 [] [rec1]).coll
      "Taa.pdf" = collGet [rec1] "Taa.pdf") ∧
    ((process_pdfs testEnv IndexFile.missing folder1 [] [rec1]).cacheFS.lookup
      "Taa.pdf" = List.lookup "Taa.pdf" ([] : List (String × CacheFile))) ∧
    ((collIds [rec1]).Nodup →
      (collIds (process_pdfs testEnv IndexFile.missing folder1 [] [rec1]).coll).Nodup) :=
  C3_snapshot_dedup testEnv IndexFile.missing folder1 [] [rec1] "Taa.pdf" (by decide)

/-- C4: ingestion is idempotent — if the hash index already records every
candidate file of the folder at its current digest (as after a prior
successful run over unchanged files), the run adds zero chunks, the
collection, the cache and the persisted index file are untouched, and every
candidate file is skipped by digest comparison. -/
theorem C4_idempotent (env : Env) (idx : IndexFile)
    (folder : List (String × List Nat)) (cacheFS : List (String × CacheFile))
    (coll : List ChunkRec)
    (h : ∀ p ∈ pdfFiles folder,
      (load_hash_index idx).lookup p.1 = some (hash_file env p.2)) :
    ((process_pdfs env idx folder cacheFS coll).totalAdded = 0) ∧
    ((process_pdfs env idx folder cacheFS coll).coll = coll) ∧
    ((process_pdfs env idx folder cacheFS coll).cacheFS = cacheFS) ∧
    ((process_pdfs env idx folder cacheFS coll).indexFile = idx) ∧
    (∀ p ∈ pdfFiles folder, Ev.skipUnchanged p.1 ∈
      (process_pdfs env idx folder cacheFS coll).trace) := by
  rw [process_pdfs]
  by_cases hemp : (pdfFiles folder).isEmpty = true
  · rw [if_pos hemp]
    refine ⟨rfl, rfl, rfl, rfl, ?_⟩
    intro p hp
    cases hpf : pdfFiles folder with
    | nil => rw [hpf] at hp; exact absurd hp (List.not_mem_nil p)
    | cons a l => rw [hpf] at hemp; exact absurd hemp (by simp)
  · rw [if_neg hemp]
    have hfold := fold_all_skip env (startIds coll) (pdfFiles folder)
      ⟨idx, load_hash_index idx, cacheFS, coll, 0, []⟩ h
    exact ⟨hfold.2.2.2.2.1, hfold.2.2.2.1, hfold.2.2.1, hfold.2.1, hfold.2.2.2.2.2.1⟩

/-- C4 witness: a second run over the unchanged `folder1`, with the hash
index recording `a.pdf`'s digest, adds zero chunks and changes nothing. -/
theorem C4_witness :
    ((process_pdfs testEnv (IndexFile.value [("a.pdf", "Ba")]) folder1 []
      [rec1]).totalAdded = 0) ∧
    ((process_pdfs testEnv (IndexFile.value [("a.pdf", "Ba")]) folder1 []
      [rec1]).coll = [rec1]) ∧
    ((process_pdfs testEnv (IndexFile.value [("a.pdf", "Ba")]) folder1 []
      [rec1]).cacheFS = []) ∧
    ((process_pdfs testEnv (IndexFile.value [("a.pdf", "Ba")]) folder1 []
      [rec1]).indexFile = IndexFile.value [("a.pdf", "Ba")]) ∧
    (∀ p ∈ pdfFiles folder1, Ev.skipUnchanged p.1 ∈
      (process_pdfs testEnv (IndexFile.value [("a.pdf", "Ba")]) folder1 []
        [rec1]).trace) :=
  C4_idempotent testEnv (IndexFile.value [("a.pdf", "Ba")]) folder1 [] [rec1]
    (by decide)

/-- C5: an unhandled error while processing one file (extraction raising, or
the embedding model raising during chunk processing — the cases that emit
the per-file error event) aborts that file only: the in-memory hash index
and the persisted index file are left exactly as before the file, no commit
for the file is emitted; and the run still reaches every candidate file of
the folder (each gets its `readFile` event), so processing continues with
the next file instead of failing the run. -/
theorem C5_error_isolation (env : Env) (idx : IndexFile)
    (folder : List (String × List Nat)) (cacheFS : List (String × CacheFile))
    (coll : List ChunkRec) (ids : List String) (st : RunState)
    (file : String) (content : List Nat) :
    ((Ev.fileError file ∈
        (process_file env ids st file content).trace.drop st.trace.length) →
      ((process_file env ids st file content).hashIndex = st.hashIndex ∧
       (process_file env ids st file content).indexFile = st.indexFile ∧
       (∀ d, Ev.commit file d ∉
         (process_file env ids st file content).trace.drop st.trace.length))) ∧
    (∀ p ∈ pdfFiles folder, ∃ d, Ev.readFile p.1 d ∈
      (process_pdfs env idx folder cacheFS coll).trace) := by
  constructor
  · rcases process_file_shape env ids st file content with
      ⟨_, heq⟩ | ⟨_, heq⟩ | ⟨_, heq⟩ | ⟨_, evs, cfs, co, n, hgev, hrel, heq⟩ |
      ⟨_, evs, dfl, cfs, co, n, hgev, hdok, hrel, heq⟩ <;> rw [heq] <;> dsimp only <;>
      rw [List.drop_left] <;> intro hmem
    · exact absurd hmem (by simp)
    · refine ⟨rfl, rfl, ?_⟩
      intro d hd
      rcases List.mem_cons.mp hd with h | h
      · exact Ev.noConfusion h
      · exact Ev.noConfusion (List.mem_singleton.mp h)
    · exact absurd hmem (by simp)
    · refine ⟨rfl, rfl, ?_⟩
      intro d hd
      rcases List.mem_cons.mp hd with h | h
      · exact Ev.noConfusion h
      · rcases List.mem_append.mp h with h1 | h1
        · exact hgev _ h1
        · exact Ev.noConfusion (List.mem_singleton.mp h1)
    · exfalso
      rcases List.mem_cons.mp hmem with h | h
      · exact Ev.noConfusion h
      · rcases List.mem_append.mp h with h1 | h1
        · exact hgev _ h1
        · rcases List.mem_append.mp h1 with h2 | h2
          · obtain ⟨b, ok, heq2, _⟩ := drainOk_recs hdok _ h2
            exact Ev.noConfusion heq2
          · exact Ev.noConfusion (List.mem_singleton.mp h2)
  · rw [process_pdfs]
    by_cases hemp : (pdfFiles folder).isEmpty = true
    · intro p hp
      cases hpf : pdfFiles folder with
      | nil => rw [hpf] at hp; exact absurd hp (List.not_mem_nil p)
      | cons a l => rw [hpf] at hemp; exact absurd hemp (by simp)
    · rw [if_neg hemp]
      intro p hp
      exact fold_readFile env (startIds coll) (pdfFiles folder) _ p hp

/-- C5 witness: with extraction raising on `a.pdf`, the file's processing
emits the error event and leaves the hash index untouched; the run still
reads every candidate file. -/
theorem C5_witness :
    ((process_file failExtractEnv [] emptyState "a.pdf" [97]).hashIndex = [] ∧
     (process_file failExtractEnv [] emptyState "a.pdf" [97]).indexFile =
       IndexFile.missing ∧
     (∀ d, Ev.commit "a.pdf" d ∉
       (process_file failExtractEnv [] emptyState "a.pdf" [97]).trace.drop
         emptyState.trace.length)) ∧
    (∃ d, Ev.readFile "a.pdf" d ∈
      (process_pdfs failExtractEnv IndexFile.missing folder1 [] []).trace) := by
  constructor
  · exact (C5_error_isolation failExtractEnv IndexFile.missing folder1 [] [] []
      emptyState "a.pdf" [97]).1 (by decide)
  · exact (C5_error_isolation failExtractEnv IndexFile.missing folder1 [] [] []
      emptyState "a.pdf" [97]).2 ("a.pdf", [97]) (by decide)

theorem push_stored (env : Env) (acc : ChunkAcc) (r0 : ChunkRec)
    (cfs : List (String × CacheFile)) (E : List Ev) (r : ChunkRec)
    (h : Stored r acc) :
    Stored r (resAcc (if BATCH_SIZE ≤ (acc.buf ++ [r0]).length
       then StepRes.ok (flushBuf env
          { buf := acc.buf ++ [r0], cacheFS := cfs, coll := acc.coll,
            added := acc.added, evs := acc.evs ++ E })
       else StepRes.ok
          { buf := acc.buf ++ [r0], cacheFS := cfs, coll := acc.coll,
            added := acc.added, evs := acc.evs ++ E })) := by
  by_cases h16 : BATCH_SIZE ≤ (acc.buf ++ [r0]).length
  · rw [if_pos h16]
    rcases h with hbuf | ⟨b, bok, hev, hrb⟩
    · exact Or.inr ⟨acc.buf ++ [r0], env.addOk (acc.buf ++ [r0]),
        List.mem_append.mpr (Or.inr (List.mem_singleton.mpr rfl)),
        List.mem_append.mpr (Or.inl hbuf)⟩
    · exact Or.inr ⟨b, bok,
        List.mem_append.mpr (Or.inl (List.mem_append.mpr (Or.inl hev))), hrb⟩
  · rw [if_neg h16]
    rcases h with hbuf | ⟨b, bok, hev, hrb⟩
    · exact Or.inl (List.mem_append.mpr (Or.inl hbuf))
    · exact Or.inr ⟨b, bok, List.mem_append.mpr (Or.inl hev), hrb⟩

theorem push_stored_new (env : Env) (acc : ChunkAcc) (r0 : ChunkRec)
    (cfs : List (String × CacheFile)) (E : List Ev) :
    Stored r0 (resAcc (if BATCH_SIZE ≤ (acc.buf ++ [r0]).length
       then StepRes.ok (flushBuf env
          { buf := acc.buf ++ [r0], cacheFS := cfs, coll := acc.coll,
            added := acc.added, evs := acc.evs ++ E })
       else StepRes.ok
          { buf := acc.buf ++ [r0], cacheFS := cfs, coll := acc.coll,
            added := acc.added, evs := acc.evs ++ E })) := by
  by_cases h16 : BATCH_SIZE ≤ (acc.buf ++ [r0]).length
  · rw [if_pos h16]
    exact Or.inr ⟨acc.buf ++ [r0], env.addOk (acc.buf ++ [r0]),
      List.mem_append.mpr (Or.inr (List.mem_singleton.mpr rfl)),
      List.mem_append.mpr (Or.inr (List.mem_singleton.mpr rfl))⟩
  · rw [if_neg h16]
    exact Or.inl (List.mem_append.mpr (Or.inr (List.mem_singleton.mpr rfl)))

theorem process_chunk_stored (env : Env) (ids : List String) (file : String)
    (acc : ChunkAcc) (c : String) (r : ChunkRec) (h : Stored r acc) :
    Stored r (resAcc (process_chunk env ids file acc c)) := by
  simp only [process_chunk]
  by_cases hc : ids.contains (hash_id env (c ++ file)) = true
  · rw [if_pos hc]
    exact h
  · rw [if_neg hc]
    by_cases hf : isFalsy (load_cache acc.cacheFS (hash_id env (c ++ file))) = true
    · rw [if_pos hf]
      cases he : env.embed c with
      | error e => exact h
      | ok v => exact push_stored env acc _ _ _ r h
    · rw [if_neg hf]
      exact push_stored env acc _ _ _ r h

theorem process_chunk_ok_new (env : Env) (ids : List String) (file : String)
    (acc : ChunkAcc) (c : String) (a2 : ChunkAcc)
    (hcf : ids.contains (hash_id env (c ++ file)) = false)
    (h : process_chunk env ids file acc c = StepRes.ok a2) :
    ∃ emb, Stored (ChunkRec.mk (hash_id env (c ++ file)) c emb file) a2 := by
  have h2 : resAcc (process_chunk env ids file acc c) = a2 := by
    rw [h]
    rfl
  rw [← h2]
  simp only [process_chunk] at h ⊢
  rw [if_neg (by rw [hcf]; exact Bool.noConfusion)] at h ⊢
  by_cases hf : isFalsy (load_cache acc.cacheFS (hash_id env (c ++ file))) = true
  · rw [if_pos hf] at h ⊢
    cases he : env.embed c with
    | error e =>
      rw [he] at h
      exact StepRes.noConfusion h
    | ok v => exact ⟨v, push_stored_new env acc _ _ _⟩
  · rw [if_neg hf] at h ⊢
    exact ⟨_, push_stored_new env acc _ _ _⟩

theorem process_chunks_stored (env : Env) (ids : List String) (file : String) :
    ∀ (cs : List String) (acc : ChunkAcc) (r : ChunkRec), Stored r acc →
      Stored r (resAcc (process_chunks env ids file acc cs)) := by
  intro cs
  induction cs with
  | nil => intro acc r h; exact h
  | cons c rest ih =>
    intro acc r h
    simp only [process_chunks]
    cases hstep : process_chunk env ids file acc c with
    | err a =>
      have h1 := process_chunk_stored env ids file acc c r h
      rw [hstep] at h1
      exact h1
    | ok a =>
      have h1 := process_chunk_stored env ids file acc c r h
      rw [hstep] at h1
      exact ih a r h1

theorem process_chunks_complete (env : Env) (ids : List String) (file : String) :
    ∀ (cs : List String) (acc a2 : ChunkAcc),
      process_chunks env ids file acc cs = StepRes.ok a2 →
      ∀ c ∈ cs, ids.contains (hash_id env (c ++ file)) = false →
        ∃ emb, Stored (ChunkRec.mk (hash_id env (c ++ file)) c emb file) a2 := by
  intro cs
  induction cs with
  | nil =>
    intro acc a2 _ c hc _
    exact absurd hc (List.not_mem_nil c)
  | cons c2 rest ih =>
    intro acc a2 h c hc hcf
    simp only [process_chunks] at h
    cases hstep : process_chunk env ids file acc c2 with
    | err a =>
      rw [hstep] at h
      exact StepRes.noConfusion h
    | ok a =>
      rw [hstep] at h
      dsimp only at h
      rcases List.mem_cons.mp hc with hceq | hcr
      · subst hceq
        obtain ⟨emb, hs⟩ := process_chunk_ok_new env ids file acc c a hcf hstep
        have hpres := process_chunks_stored env ids file rest a _ hs
        rw [h] at hpres
        exact ⟨emb, hpres⟩
      · exact ih a a2 h c hcr hcf

theorem drainBuf_stored (env : Env) (a : ChunkAcc) (r : ChunkRec)
    (h : Stored r a) :
    ∃ b bok, Ev.flush b bok ∈ (drainBuf env a).evs ∧ r ∈ b := by
  unfold drainBuf
  by_cases he : a.buf.isEmpty = true
  · rw [if_pos he]
    rcases h with hbuf | ⟨b, bok, hev, hrb⟩
    · exfalso
      cases hb : a.buf with
      | nil => rw [hb] at hbuf; exact List.not_mem_nil r hbuf
      | cons x xs => rw [hb] at he; exact Bool.noConfusion he
    · exact ⟨b, bok, hev, hrb⟩
  · rw [if_neg he]
    rcases h with hbuf | ⟨b, bok, hev, hrb⟩
    · exact ⟨a.buf, env.addOk a.buf,
        List.mem_append.mpr (Or.inr (List.mem_singleton.mpr rfl)), hbuf⟩
    · exact ⟨b, bok, List.mem_append.mpr (Or.inl hev), hrb⟩

theorem process_file_err_eq (env : Env) (ids : List String) (st : RunState)
    (file : String) (content : List Nat) (text : String) (acc : ChunkAcc)
    (hskip : st.hashIndex.lookup file ≠ some (hash_file env content))
    (hex : extract_text env content = Except.ok text)
    (hempty : ¬ pyStrip text = "")
    (hch : process_chunks env ids file
      { buf := [], cacheFS := st.cacheFS, coll := st.coll, added := 0, evs := [] }
      (split_text_semantically env (clean_text text)) = StepRes.err acc) :
    process_file env ids st file content =
      { st with
        cacheFS := acc.cacheFS
        coll := acc.coll
        totalAdded := st.totalAdded + acc.added
        trace := st.trace ++ [Ev.readFile file (hash_file env content)] ++
          acc.evs ++ [Ev.fileError file] } := by
  simp only [process_file]
  rw [if_neg hskip, hex]
  dsimp only
  rw [if_neg hempty, hch]

theorem process_file_ok_eq (env : Env) (ids : List String) (st : RunState)
    (file : String) (content : List Nat) (text : String) (acc : ChunkAcc)
    (hskip : st.hashIndex.lookup file ≠ some (hash_file env content))
    (hex : extract_text env content = Except.ok text)
    (hempty : ¬ pyStrip text = "")
    (hch : process_chunks env ids file
      { buf := [], cacheFS := st.cacheFS, coll := st.coll, added := 0, evs := [] }
      (split_text_semantically env (clean_text text)) = StepRes.ok acc) :
    process_file env ids st file content =
      { indexFile := IndexFile.value (setEntry file (hash_file env content) st.hashIndex)
        hashIndex := setEntry file (hash_file env content) st.hashIndex
        cacheFS := (drainBuf env acc).cacheFS
        coll := (drainBuf env acc).coll
        totalAdded := st.totalAdded + (drainBuf env acc).added
        trace := st.trace ++ [Ev.readFile file (hash_file env content)] ++
          (drainBuf env acc).evs ++ [Ev.commit file (hash_file env content)] } := by
  simp only [process_file]
  rw [if_neg hskip, hex]
  dsimp only
  rw [if_neg hempty, hch]

/-- C6: the batch buffer is flushed exactly at the BATCH_SIZE threshold and
drained at end of file — in the file's processing segment every batch write
carries between 1 and BATCH_SIZE records, every batch write that is
followed by another one carries exactly BATCH_SIZE (only the final drain
may be smaller), and on a file that completes without error every accepted
chunk's record really appears in some batch write of the segment (nothing
is left behind in the buffer) — and a failed batch is dropped without
affecting anything but the collection: the run's hash index, persisted
index, cache, added count and trace (up to recorded write outcomes) are
identical whatever the batch-write outcomes are. -/
theorem C6_batching (env : Env) (ids : List String) (st : RunState)
    (file : String) (content : List Nat) :
    (flushSizesOk
      ((process_file env ids st file content).trace.drop st.trace.length) = true) ∧
    (∀ g, StSim (process_file env ids st file content)
      (process_file (setAddOk env g) ids st file content)) ∧
    (∀ text, extract_text env content = Except.ok text →
      st.hashIndex.lookup file ≠ some (hash_file env content) →
      ¬ pyStrip text = "" →
      Ev.fileError file ∉
        (process_file env ids st file content).trace.drop st.trace.length →
      ∀ c ∈ split_text_semantically env (clean_text text),
        ids.contains (hash_id env (c ++ file)) = false →
        ∃ b bok r, Ev.flush b bok ∈
            (process_file env ids st file content).trace.drop st.trace.length ∧
          r ∈ b ∧ r.id = hash_id env (c ++ file) ∧ r.text = c ∧
          r.source = file) := by
  refine ⟨?_, ?_, ?_⟩
  · rcases process_file_shape env ids st file content with
      ⟨_, heq⟩ | ⟨_, heq⟩ | ⟨_, heq⟩ | ⟨_, evs, cfs, co, n, hgev, hrel, heq⟩ |
      ⟨_, evs, dfl, cfs, co, n, hgev, hdok, hrel, heq⟩ <;> rw [heq] <;> dsimp only <;>
      rw [List.drop_left]
    · rfl
    · rfl
    · rfl
    · rw [← List.cons_append]
      apply flushSizesOk_append
      · intro e he b ok heq2
        rcases List.mem_cons.mp he with h | h
        · rw [heq2] at h; exact Ev.noConfusion h
        · have := hgev e h
          rw [heq2] at this
          exact this.2
      · rfl
    · rw [← List.cons_append]
      apply flushSizesOk_append
      · intro e he b ok heq2
        rcases List.mem_cons.mp he with h | h
        · rw [heq2] at h; exact Ev.noConfusion h
        · have hg := hgev e h
          rw [heq2] at hg
          exact hg.2
      · exact flushSizesOk_drain hdok [Ev.commit file (hash_file env content)] rfl rfl
  · intro g
    exact process_file_sim env g ids file content st st ⟨rfl, rfl, rfl, rfl, rfl⟩
  · intro text hex hskip hempty hnoerr c hcm hcf
    cases hch : process_chunks env ids file
        { buf := [], cacheFS := st.cacheFS, coll := st.coll, added := 0, evs := [] }
        (split_text_semantically env (clean_text text)) with
    | err acc =>
      exfalso
      apply hnoerr
      rw [process_file_err_eq env ids st file content text acc hskip hex hempty hch]
      dsimp only
      rw [List.append_assoc, List.append_assoc, List.drop_left]
      exact List.mem_append.mpr (Or.inr (List.mem_append.mpr
        (Or.inr (List.mem_singleton.mpr rfl))))
    | ok acc =>
      obtain ⟨emb, hst⟩ := process_chunks_complete env ids file
        (split_text_semantically env (clean_text text)) _ acc hch c hcm hcf
      obtain ⟨b, bok, hev, hrb⟩ := drainBuf_stored env acc _ hst
      refine ⟨b, bok, ChunkRec.mk (hash_id env (c ++ file)) c emb file,
        ?_, hrb, rfl, rfl, rfl⟩
      rw [process_file_ok_eq env ids st file content text acc hskip hex hempty hch]
      dsimp only
      rw [List.append_assoc, List.append_assoc, List.drop_left]
      exact List.mem_append.mpr (Or.inr (List.mem_append.mpr (Or.inl hev)))

/-- C6 witness: a concrete one-chunk file completes, and its record — fewer
than BATCH_SIZE records were buffered — appears in a batch write of the
file's segment: the end-of-file drain really emitted it. -/
theorem C6_witness :
    ∃ b bok r, Ev.flush b bok ∈
        (process_file testEnv [] emptyState "a.pdf" [97]).trace.drop
          emptyState.trace.length ∧
      r ∈ b ∧ r.id = hash_id testEnv ("a" ++ "a.pdf") ∧ r.text = "a" ∧
      r.source = "a.pdf" := by
  have hbs : bytesToString [97] = "a" := by decide
  have hex : extract_text testEnv [97] = Except.ok "a" := congrArg Except.ok hbs
  exact (C6_batching testEnv [] emptyState "a.pdf" [97]).2.2 "a" hex
    (by decide) (by decide) (by decide) "a" (by decide) (by decide)

/-- C7: every record handed to the vector store while processing a file
carries an id computed as the digest of the chunk text followed by the
source file name, and its metadata source is that file.  The id is a pure
function of the pair (chunk text, file name), so it is identical across
runs and states. -/
theorem C7_chunk_identity (env : Env) (ids : List String) (st : RunState)
    (file : String) (content : List Nat) :
    ∀ e ∈ (process_file env ids st file content).trace.drop st.trace.length,
      ∀ b ok, e = Ev.flush b ok →
        ∀ r ∈ b, r.id = hash_id env (r.text ++ r.source) ∧ r.source = file := by
  rcases process_file_shape env ids st file content with
    ⟨_, heq⟩ | ⟨_, heq⟩ | ⟨_, heq⟩ | ⟨_, evs, cfs, co, n, hgev, hrel, heq⟩ |
    ⟨_, evs, dfl, cfs, co, n, hgev, hdok, hrel, heq⟩ <;> rw [heq] <;> dsimp only <;>
    rw [List.drop_left] <;> intro e he b ok heq2 r hr
  · rcases List.mem_cons.mp he with h | h
    · rw [heq2] at h; exact Ev.noConfusion h
    · rw [heq2] at h; exact Ev.noConfusion (List.mem_singleton.mp h)
  · rcases List.mem_cons.mp he with h | h
    · rw [heq2] at h; exact Ev.noConfusion h
    · rw [heq2] at h; exact Ev.noConfusion (List.mem_singleton.mp h)
  · rcases List.mem_cons.mp he with h | h
    · rw [heq2] at h; exact Ev.noConfusion h
    · rw [heq2] at h; exact Ev.noConfusion (List.mem_singleton.mp h)
  · rcases List.mem_cons.mp he with h | h
    · rw [heq2] at h; exact Ev.noConfusion h
    · rcases List.mem_append.mp h with h1 | h1
      · have hg := hgev e h1
        rw [heq2] at hg
        have hr2 := hg.1 r hr
        exact ⟨by rw [hr2.1]; exact hr2.2.1, hr2.1⟩
      · rw [heq2] at h1; exact Ev.noConfusion (List.mem_singleton.mp h1)
  · rcases List.mem_cons.mp he with h | h
    · rw [heq2] at h; exact Ev.noConfusion h
    · rcases List.mem_append.mp h with h1 | h1
      · have hg := hgev e h1
        rw [heq2] at hg
        have hr2 := hg.1 r hr
        exact ⟨by rw [hr2.1]; exact hr2.2.1, hr2.1⟩
      · rcases List.mem_append.mp h1 with h2 | h2
        · obtain ⟨b2, ok2, heq3, hg2⟩ := drainOk_recs hdok e h2
          rw [heq2] at heq3
          injection heq3 with hb hok
          subst hb
          have hr2 := hg2 r hr
          exact ⟨by rw [hr2.1]; exact hr2.2.1, hr2.1⟩
        · rw [heq2] at h2; exact Ev.noConfusion (List.mem_singleton.mp h2)

/-- C7 witness: the record produced for chunk "a" of `a.pdf` under `testEnv`
carries the digest of its text followed by its source as its id. -/
theorem C7_witness :
    rec1.id = hash_id testEnv (rec1.text ++ rec1.source) ∧ rec1.source = "a.pdf" :=
  C7_chunk_identity testEnv [] emptyState "a.pdf" [97]
    (Ev.flush [rec1] true) (by decide) [rec1] true rfl rec1 (by decide)

/-- C8: loading persisted state is fail-open — a missing or unparsable
hash-index file loads as the empty index, so that with a corrupt index no
file of a run is ever skipped as unchanged, and a missing or unparsable
individual embedding-cache file loads as a miss; all four loaders are total
functions, so none of these conditions raises. -/
theorem C8_fail_open :
    (load_hash_index IndexFile.missing = [] ∧
     load_hash_index IndexFile.corrupt = []) ∧
    (∀ (fs : List (String × CacheFile)) (fp : String), fs.lookup fp = none →
      load_cache fs fp = none) ∧
    (∀ (fs : List (String × CacheFile)) (fp : String),
      fs.lookup fp = some CacheFile.corrupt → load_cache fs fp = none) ∧
    (∀ (env : Env) (folder : List (String × List Nat))
      (cacheFS : List (String × CacheFile)) (coll : List ChunkRec),
      ((pdfFiles folder).map Prod.fst).Nodup →
      ∀ e ∈ (process_pdfs env IndexFile.corrupt folder cacheFS coll).trace,
        isSkipEv e = false) := by
  refine ⟨⟨rfl, rfl⟩, ?_, ?_, ?_⟩
  · intro fs fp h
    unfold load_cache
    rw [h]
  · intro fs fp h
    unfold load_cache
    rw [h]
  · intro env folder cacheFS coll hnd e he
    rw [process_pdfs] at he
    by_cases hemp : (pdfFiles folder).isEmpty = true
    · rw [if_pos hemp] at he
      exact absurd he (List.not_mem_nil e)
    · rw [if_neg hemp] at he
      have hfold := fold_noskip env (startIds coll) (pdfFiles folder)
        ⟨IndexFile.corrupt, load_hash_index IndexFile.corrupt, cacheFS, coll, 0, []⟩
        (fun p _ => rfl) hnd e he
      rcases hfold with h | h
      · exact absurd h (List.not_mem_nil e)
      · exact h

/-- C8 witness: a corrupt cache entry and a missing cache entry both load as
a miss, and a run over `folder1` with a corrupt hash index skips nothing. -/
theorem C8_witness :
    (load_cache [("u.json", CacheFile.corrupt)] "u.json" = none) ∧
    (load_cache ([] : List (String × CacheFile)) "v.json" = none) ∧
    (∀ e ∈ (process_pdfs testEnv IndexFile.corrupt folder1 [] []).trace,
      isSkipEv e = false) := by
  refine ⟨?_, ?_, ?_⟩
  · exact C8_fail_open.2.2.1 _ _ (by decide)
  · exact C8_fail_open.2.1 _ _ (by decide)
  · exact C8_fail_open.2.2.2 testEnv folder1 [] [] (by decide)

theorem push_result (env : Env) (acc : ChunkAcc) (r0 : ChunkRec)
    (cfs : List (String × CacheFile)) (E : List Ev) :
    ((resAcc (if BATCH_SIZE ≤ (acc.buf ++ [r0]).length
       then StepRes.ok (flushBuf env
          { buf := acc.buf ++ [r0], cacheFS := cfs, coll := acc.coll,
            added := acc.added, evs := acc.evs ++ E })
       else StepRes.ok
          { buf := acc.buf ++ [r0], cacheFS := cfs, coll := acc.coll,
            added := acc.added, evs := acc.evs ++ E })).cacheFS =
      cfs) ∧
    (∃ tail, (resAcc (if BATCH_SIZE ≤ (acc.buf ++ [r0]).length
       then StepRes.ok (flushBuf env
          { buf := acc.buf ++ [r0], cacheFS := cfs, coll := acc.coll,
            added := acc.added, evs := acc.evs ++ E })
       else StepRes.ok
          { buf := acc.buf ++ [r0], cacheFS := cfs, coll := acc.coll,
            added := acc.added, evs := acc.evs ++ E })).evs =
        acc.evs ++ E ++ tail ∧ (tail = [] ∨ ∃ b ok, tail = [Ev.flush b ok])) := by
  by_cases h16 : BATCH_SIZE ≤ (acc.buf ++ [r0]).length
  · rw [if_pos h16]
    exact ⟨rfl, [Ev.flush (acc.buf ++ [r0]) (env.addOk (acc.buf ++ [r0]))], rfl,
      Or.inr ⟨_, _, rfl⟩⟩
  · rw [if_neg h16]
    exact ⟨rfl, [], by simp [resAcc], Or.inl rfl⟩

/-- C9: a successfully parsed embedding-cache entry holding a falsy value
(the empty vector) is treated exactly like a miss — the embedding model is
invoked for the chunk and the cache file is overwritten with the newly
computed vector — while a non-empty cached vector is a hit: the model is
not invoked and the cache directory is left unchanged. -/
theorem C9_falsy_cache_miss (env : Env) (ids : List String) (file chunk : String)
    (acc : ChunkAcc) (v w : List Int) :
    ((ids.contains (hash_id env (chunk ++ file)) = false) →
     load_cache acc.cacheFS (hash_id env (chunk ++ file)) = some [] →
     env.embed chunk = Except.ok v →
       ((resAcc (process_chunk env ids file acc chunk)).cacheFS =
         save_cache acc.cacheFS (hash_id env (chunk ++ file)) v ∧
        Ev.embedCall file (hash_id env (chunk ++ file)) chunk ∈
         (resAcc (process_chunk env ids file acc chunk)).evs.drop
           acc.evs.length)) ∧
    ((ids.contains (hash_id env (chunk ++ file)) = false) →
     load_cache acc.cacheFS (hash_id env (chunk ++ file)) = some w → w ≠ [] →
       ((resAcc (process_chunk env ids file acc chunk)).cacheFS = acc.cacheFS ∧
        ∀ e ∈ (resAcc (process_chunk env ids file acc chunk)).evs.drop
          acc.evs.length, isEmbedEv e = false)) := by
  constructor
  · intro hc hl hemb
    simp only [process_chunk]
    rw [if_neg (by rw [hc]; exact Bool.noConfusion), hl]
    rw [if_pos (show isFalsy (some ([] : List Int)) = true from rfl), hemb]
    dsimp only
    obtain ⟨hc1, tail, hevs, htail⟩ := push_result env acc
      (ChunkRec.mk (hash_id env (chunk ++ file)) chunk v file)
      (save_cache acc.cacheFS (hash_id env (chunk ++ file)) v)
      [Ev.embedCall file (hash_id env (chunk ++ file)) chunk,
       Ev.cacheWrite file (hash_id env (chunk ++ file)) v]
    refine ⟨hc1, ?_⟩
    rw [hevs, List.append_assoc, List.drop_left]
    exact List.mem_append.mpr (Or.inl (List.mem_cons_self _ _))
  · intro hc hl hw
    have hwi : isFalsy (some w) = false := by
      cases w with
      | nil => exact absurd rfl hw
      | cons a l => rfl
    simp only [process_chunk]
    rw [if_neg (by rw [hc]; exact Bool.noConfusion), hl]
    rw [if_neg (by rw [hwi]; exact Bool.noConfusion)]
    dsimp only
    obtain ⟨hc1, tail, hevs, htail⟩ := push_result env acc
      (ChunkRec.mk (hash_id env (chunk ++ file)) chunk ((some w).getD []) file)
      acc.cacheFS []
    refine ⟨hc1, ?_⟩
    intro e he
    rw [hevs, List.append_assoc, List.nil_append, List.drop_left] at he
    rcases htail with h | ⟨b, ok, h⟩
    · rw [h] at he
      exact absurd he (List.not_mem_nil e)
    · rw [h] at he
      rw [List.mem_singleton.mp he]
      rfl

/-- C9 witness: under `testEnv`, a cached empty vector for the chunk of
`a.pdf` causes the model to run and the cache file to be overwritten, while
a cached non-empty vector leaves the cache directory unchanged. -/
theorem C9_witness :
    ((resAcc (process_chunk testEnv [] "a.pdf" accEmptyVec "a")).cacheFS =
      save_cache accEmptyVec.cacheFS (hash_id testEnv ("a" ++ "a.pdf")) [1]) ∧
    (Ev.embedCall "a.pdf" (hash_id testEnv ("a" ++ "a.pdf")) "a" ∈
      (resAcc (process_chunk testEnv [] "a.pdf" accEmptyVec "a")).evs.drop
        accEmptyVec.evs.length) ∧
    ((resAcc (process_chunk testEnv [] "a.pdf" accHit "a")).cacheFS =
      accHit.cacheFS) ∧
    (∀ e ∈ (resAcc (process_chunk testEnv [] "a.pdf" accHit "a")).evs.drop
      accHit.evs.length, isEmbedEv e = false) := by
  have h1 := (C9_falsy_cache_miss testEnv [] "a.pdf" "a" accEmptyVec [1] [2]).1
    (by decide) (by decide) rfl
  have h2 := (C9_falsy_cache_miss testEnv [] "a.pdf" "a" accHit [1] [2]).2
    (by decide) (by decide) (by decide)
  exact ⟨h1.1, h1.2, h2.1, h2.2⟩

/-- C10: only directory entries whose names end in ".pdf" case-insensitively
are considered: for any name that is not such an entry, no event of the run
touches it (it is never read or hashed, never embedded, never written, never
committed), its hash-index entry is exactly the loaded one, and no record
with it as source is added to the collection; a folder with no candidate
entries leaves the collection, the cache, and the persisted index file
unchanged, reports zero added chunks, and produces no events (the run
returns without raising). -/
theorem C10_pdf_only (env : Env) (idx : IndexFile)
    (folder : List (String × List Nat)) (cacheFS : List (String × CacheFile))
    (coll : List ChunkRec) (name : String) (h : isPdfName name = false) :
    ((process_pdfs env idx folder cacheFS coll).trace.all
      (fun e => !(evTouches name e)) = true) ∧
    ((process_pdfs env idx folder cacheFS coll).hashIndex.lookup name =
      (load_hash_index idx).lookup name) ∧
    (∀ r ∈ (process_pdfs env idx folder cacheFS coll).coll,
      r.source = name → r ∈ coll) ∧
    (pdfFiles folder = [] →
      (process_pdfs env idx folder cacheFS coll).coll = coll ∧
      (process_pdfs env idx folder cacheFS coll).cacheFS = cacheFS ∧
      (process_pdfs env idx folder cacheFS coll).indexFile = idx ∧
      (process_pdfs env idx folder cacheFS coll).totalAdded = 0 ∧
      (process_pdfs env idx folder cacheFS coll).trace = []) := by
  rw [process_pdfs]
  by_cases hemp : (pdfFiles folder).isEmpty = true
  · rw [if_pos hemp]
    exact ⟨rfl, rfl, fun r hr _ => hr, fun _ => ⟨rfl, rfl, rfl, rfl, rfl⟩⟩
  · rw [if_neg hemp]
    have hnames : ∀ p ∈ pdfFiles folder, p.1 ≠ name := by
      intro p hp hc
      rw [pdfFiles] at hp
      have hmem := (List.mem_filter.mp hp).2
      rw [hc, h] at hmem
      exact Bool.noConfusion hmem
    have hfold := fold_frame env (startIds coll) name (pdfFiles folder)
      ⟨idx, load_hash_index idx, cacheFS, coll, 0, []⟩ hnames
    refine ⟨?_, hfold.1, hfold.2.1, ?_⟩
    · rw [List.all_eq_true]
      intro e he
      rcases hfold.2.2 e he with h1 | h1
      · exact absurd h1 (List.not_mem_nil e)
      · simp [h1]
    · intro hfe
      rw [hfe] at hemp
      exact absurd rfl hemp

/-- C10 witness: a non-pdf name is untouched by a run over `folder1`. -/
theorem C10_witness :
    ((process_pdfs testEnv IndexFile.missing folder1 [] []).trace.all
      (fun e => !(evTouches "notes.txt" e)) = true) ∧
    ((process_pdfs testEnv IndexFile.missing folder1 [] []).hashIndex.lookup
      "notes.txt" = (load_hash_index IndexFile.missing).lookup "notes.txt") ∧
    (∀ r ∈ (process_pdfs testEnv IndexFile.missing folder1 [] []).coll,
      r.source = "notes.txt" → r ∈ ([] : List ChunkRec)) ∧
    (pdfFiles folder1 = [] →
      (process_pdfs testEnv IndexFile.missing folder1 [] []).coll = [] ∧
      (process_pdfs testEnv IndexFile.missing folder1 [] []).cacheFS = [] ∧
      (process_pdfs testEnv IndexFile.missing folder1 [] []).indexFile =
        IndexFile.missing ∧
      (process_pdfs testEnv IndexFile.missing folder1 [] []).totalAdded = 0 ∧
      (process_pdfs testEnv IndexFile.missing folder1 [] []).trace = []) :=
  C10_pdf_only testEnv IndexFile.missing folder1 [] [] "notes.txt" (by decide)

end Loader
